import Mathlib

/-!
# Verification of the timelms sampler (scripts/sampler_api.py, scripts/utils.py)

Shallow embedding of the period generator (`get_periods` and its helper
`check_invalid_date` from `scripts/utils.py`) and of the fetch loop of
`scripts/sampler_api.py` (`build_query`, the query-length guard, the
resume scan, the retry loop and the artifact write).

Timestamps are modelled as seconds since the proleptic-Gregorian epoch
(year 0), mirroring Python `datetime` arithmetic on naive UTC datetimes:
`datetime(y, m, d, h)` is modelled by `toSecs y m d h` together with the
validity predicate `isValidDateHour` (the `datetime` constructor raises
`ValueError` exactly on invalid calendar combinations, which
`check_invalid_date` catches).  The current moment `datetime.now()` is an
explicit parameter `now` (the claims fix "now" for a run).  Python floats
(`sleep_duration += 0.01`) are modelled as exact rationals.
-/

namespace Timelms

/-! ## Calendar model (mirrors Python `datetime` calendar rules) -/

def isLeap (y : Nat) : Bool :=
  (y % 4 == 0 && y % 100 != 0) || y % 400 == 0

def daysInMonth (y m : Nat) : Nat :=
  if m = 2 then (if isLeap y then 29 else 28)
  else if m = 4 ∨ m = 6 ∨ m = 9 ∨ m = 11 then 30
  else 31

def daysInYear (y : Nat) : Nat := if isLeap y then 366 else 365

/-- Days in all years `0, 1, ..., y-1`. -/
def daysBeforeYear : Nat → Nat
  | 0 => 0
  | y + 1 => daysBeforeYear y + daysInYear y

/-- Days in the months `1, ..., m-1` of year `y`. -/
def daysBeforeMonth (y : Nat) : Nat → Nat
  | 0 => 0
  | 1 => 0
  | m + 2 => daysBeforeMonth y (m + 1) + daysInMonth y (m + 1)

/-- Timestamp (in seconds) of `datetime(y, m, d, h)`:
day index `* 86400` plus `h * 3600`. -/
def toSecs (y m d h : Nat) : Nat :=
  (daysBeforeYear y + daysBeforeMonth y m + (d - 1)) * 86400 + h * 3600

/-- The combinations `(y, m, d, h)` on which the Python `datetime`
constructor succeeds (year at least `MINYEAR = 1`, month `1..12`, day
within the month, hour `0..23`). -/
def isValidDateHour (y m d h : Nat) : Prop :=
  1 ≤ y ∧ 1 ≤ m ∧ m ≤ 12 ∧ 1 ≤ d ∧ d ≤ daysInMonth y m ∧ h ≤ 23

instance (y m d h : Nat) : Decidable (isValidDateHour y m d h) := by
  unfold isValidDateHour; infer_instance

/-- `utils.check_invalid_date`: `True` when the `datetime` constructor
raises (invalid calendar combination) or the candidate lies within
90 minutes of the current moment (`dt_now.timestamp() - dt.timestamp()
< 90 * 60`). -/
def check_invalid_date (now y m d h : Nat) : Bool :=
  if ¬ isValidDateHour y m d h then true
  else if (now : Int) - (toSecs y m d h : Int) < 90 * 60 then true
  else false

/-! ## The candidate enumerations of `get_periods` -/

/-- `range(start_year, stop_year + 1)`. -/
def yearsList (sy ey : Nat) : List Nat := List.range' sy (ey + 1 - sy)

/-- `range(1, 12 + 1)`. -/
def monthsList : List Nat := List.range' 1 12

/-- `range(1, 31 + 1)`. -/
def daysList : List Nat := List.range' 1 31

/-- `range(0, 23 + 1)`. -/
def hoursList : List Nat := List.range 24

/-- All `(year, month, day, hour)` tuples the hourly loop iterates over,
in iteration order. -/
def hourlyCands (sy ey : Nat) : List (Nat × Nat × Nat × Nat) :=
  (yearsList sy ey).flatMap fun y =>
    monthsList.flatMap fun m =>
      daysList.flatMap fun d =>
        hoursList.map fun h => (y, m, d, h)

/-- The hourly branch of `get_periods`: skip invalid candidates, emit
`[start, start + 1 hour)`.  There is no clipping and no `stop` flag in
this branch. -/
def getPeriodsHourly (now sy ey : Nat) : List (Nat × Nat) :=
  (hourlyCands sy ey).filterMap fun c =>
    match c with
    | (y, m, d, h) =>
      if check_invalid_date now y m d h then none
      else some (toSecs y m d h, toSecs y m d h + 3600)

/-- One inner loop of the daily/monthly/yearly branches: iterate the
candidates of the group, `continue` on `check_invalid_date`, otherwise
build `(start_time, end_time)`, clip `end_time` to `clipEnd` and set
`stop` when `end_time` lies in the future (`(date_today -
end_time).total_seconds() < 0`), append the pair and `break` when `stop`
is set.  Returns the appended pairs and the final `stop` flag; `stop`
set before entry is the Python stale flag that survives the inner
`break`. -/
def groupLoop (now clipEnd : Nat) (inv : α → Bool) (sf ef : α → Nat) :
    List α → Bool → List (Nat × Nat) × Bool
  | [], stop => ([], stop)
  | c :: cs, stop =>
    if inv c then groupLoop now clipEnd inv sf ef cs stop
    else
      let s := sf c
      let e := if now < ef c then clipEnd else ef c
      let stop' := stop || decide (now < ef c)
      if stop' then ([(s, e)], true)
      else
        let r := groupLoop now clipEnd inv sf ef cs stop'
        ((s, e) :: r.1, r.2)

/-- The outer loop(s) around `groupLoop`: the Python `break` leaves only
the innermost loop, so the (stale) `stop` flag is threaded from group to
group. -/
def outerLoop (now clipEnd : Nat) (inv : α → Bool) (sf ef : α → Nat) :
    List (List α) → Bool → List (Nat × Nat)
  | [], _ => []
  | g :: gs, stop =>
    let r := groupLoop now clipEnd inv sf ef g stop
    r.1 ++ outerLoop now clipEnd inv sf ef gs r.2

/-- The day groups of the daily branch: for each `(year, month)` (in
loop order) the inner day loop iterates `range(1, 31 + 1)`. -/
def dailyGroups (sy ey : Nat) : List (List (Nat × Nat × Nat)) :=
  (yearsList sy ey).flatMap fun y =>
    monthsList.map fun m => daysList.map fun d => (y, m, d)

def dailyStart (c : Nat × Nat × Nat) : Nat := toSecs c.1 c.2.1 c.2.2 0

/-- The daily branch: windows `[day 00:00, day + 1 00:00)`; a window
whose end is in the future is clipped to `date_today - timedelta(hours=1)`
and sets `stop`. -/
def getPeriodsDaily (now sy ey : Nat) : List (Nat × Nat) :=
  outerLoop now (now - 3600)
    (fun c => check_invalid_date now c.1 c.2.1 c.2.2 0)
    dailyStart (fun c => dailyStart c + 86400) (dailyGroups sy ey) false

/-- `next_month = month + 1; if next_month > 12: next_year += 1;
next_month = 1`. -/
def nextMonth (y m : Nat) : Nat × Nat :=
  if m + 1 > 12 then (y + 1, 1) else (y, m + 1)

/-- The month groups of the monthly branch: one group of months
`1..12` per year. -/
def monthlyGroups (sy ey : Nat) : List (List (Nat × Nat)) :=
  (yearsList sy ey).map fun y => monthsList.map fun m => (y, m)

def monthlyStart (c : Nat × Nat) : Nat := toSecs c.1 c.2 1 0

/-- `end_time = datetime(next_year, next_month, 1, 0) -
timedelta(seconds=1)`. -/
def monthlyEnd (c : Nat × Nat) : Nat :=
  toSecs (nextMonth c.1 c.2).1 (nextMonth c.1 c.2).2 1 0 - 1

/-- The monthly branch: validity is checked on the first of the month;
a window whose end is in the future is clipped to `date_today` and sets
`stop`. -/
def getPeriodsMonthly (now sy ey : Nat) : List (Nat × Nat) :=
  outerLoop now now
    (fun c => check_invalid_date now c.1 c.2 1 0)
    monthlyStart monthlyEnd (monthlyGroups sy ey) false

def yearlyStart (y : Nat) : Nat := toSecs y 1 1 0

/-- `end_time = datetime(year + 1, 1, 1, 0) - timedelta(seconds=1)`. -/
def yearlyEnd (y : Nat) : Nat := toSecs (y + 1) 1 1 0 - 1

/-- The yearly branch is a single loop whose `break` leaves it for
good. -/
def getPeriodsYearly (now sy ey : Nat) : List (Nat × Nat) :=
  (groupLoop now now
    (fun y => check_invalid_date now y 1 1 0)
    yearlyStart yearlyEnd (yearsList sy ey) false).1

/-- The calendar successor of a day. -/
def nextDay : Nat × Nat × Nat → Nat × Nat × Nat
  | (y, m, d) =>
    if d < daysInMonth y m then (y, m, d + 1)
    else if m < 12 then (y, m + 1, 1)
    else (y + 1, 1, 1)

def addDays : Nat → Nat × Nat × Nat → Nat × Nat × Nat
  | 0, c => c
  | n + 1, c => addDays n (nextDay c)

/-- `utils.get_number_of_days`: total days of all years in
`range(start_year, stop_year + 1)` (summing `daysinmonth` over the
twelve months). -/
def get_number_of_days (sy ey : Nat) : Nat :=
  ((yearsList sy ey).map fun y => (monthsList.map fun m => daysInMonth y m).sum).sum

/-- The weekly branch: `start_time` begins at `datetime(start_year, 1,
1, 0)`; the loop runs once per element of `range(1,
get_number_of_days(...), 7)` (that many iterations, modelled as fuel);
`continue` on an invalid start leaves `start_time` unchanged; otherwise
`end_time = start_time + timedelta(days=7)`, clipped to `date_today`
with `stop` (and `break`) when in the future, else `start_time`
advances to `end_time`. -/
def weeklyLoop (now : Nat) : Nat → Nat × Nat × Nat → List (Nat × Nat)
  | 0, _ => []
  | k + 1, c =>
    if check_invalid_date now c.1 c.2.1 c.2.2 0 then weeklyLoop now k c
    else
      let s := toSecs c.1 c.2.1 c.2.2 0
      if now < s + 7 * 86400 then [(s, now)]
      else (s, s + 7 * 86400) :: weeklyLoop now k (addDays 7 c)

/-- `len(range(1, N, 7))`. -/
def weeklyIterCount (sy ey : Nat) : Nat := (get_number_of_days sy ey + 5) / 7

def getPeriodsWeekly (now sy ey : Nat) : List (Nat × Nat) :=
  weeklyLoop now (weeklyIterCount sy ey) (sy, 1, 1)

/-- `utils.get_periods`: dispatch on the `time_range` string; the
collected `day_periods` list is appended to `all_periods` only when
non-empty. -/
def get_periods (time_range : String) (now sy ey : Nat) :
    List (List (Nat × Nat)) :=
  let day_periods : List (Nat × Nat) :=
    if time_range = "hourly" then getPeriodsHourly now sy ey
    else if time_range = "daily" then getPeriodsDaily now sy ey
    else if time_range = "weekly" then getPeriodsWeekly now sy ey
    else if time_range = "monthly" then getPeriodsMonthly now sy ey
    else if time_range = "yearly" then getPeriodsYearly now sy ey
    else []
  if day_periods.length > 0 then [day_periods] else []

/-! ## `sampler_api.build_query` -/

/-- `f'"{word}"'`. -/
def quoteWord (w : String) : String := "\"" ++ w ++ "\""

/-- `sampler_api.build_query`.  The optional filter arguments model the
Python variables `lang`/`place`/`country`/`point_radius`/`coords`, each
either `None` or a non-empty rendered filter string (so Python
truthiness coincides with `Option.isSome`). -/
def build_query (stop_words : List String)
    (lang place country point_radius coords : Option String)
    (query_options : String) : String :=
  let sep := " "
  let stop_word_string := if stop_words ≠ [] then "(" else ""
  let end_string := if stop_words ≠ [] then ")" ++ sep else sep
  let end_string := match lang with
    | some v => end_string ++ v ++ sep
    | none => end_string
  let end_string := match place with
    | some v => end_string ++ v ++ sep
    | none => end_string
  let end_string := match country with
    | some v => end_string ++ v ++ sep
    | none => end_string
  let end_string := match point_radius with
    | some v => end_string ++ v ++ sep
    | none => end_string
  let end_string := match coords with
    | some v => end_string ++ v ++ sep
    | none => end_string
  let stop_word_string := stop_word_string ++
    String.join (stop_words.enum.map fun nw =>
      quoteWord nw.2 ++ if nw.1 + 1 < stop_words.length then " OR " else "")
  stop_word_string ++ end_string ++ query_options

/-! ## The fetch loop of `sampler_api.py`

The remote call's outcomes are an oracle: a finite list of Booleans
consumed one per request (`true` = HTTP 200, `false` = the
`query_twitter` exception).  The loop retries a window indefinitely, so
a run is observed up to exhaustion of the oracle: a `none` final state
means the retry loop was still running when the oracle ran out. -/

/-- Observable effects of the loop body, in program order. -/
inductive Event where
  | found (fn : String)
  | request (start_time end_time : String)
  | fail (start_time end_time : String)
  | write (fn : String)
  deriving DecidableEq

/-- `start_time.replace(':', '')`. -/
def stripColons (s : String) : String :=
  String.mk (s.data.filter fun ch => ch ≠ ':')

/-- `'%s_%s.response.json' % (start_time.replace(':', ''),
end_time.replace(':', ''))`. -/
def response_fn (start_time end_time : String) : String :=
  stripColons start_time ++ "_" ++ stripColons end_time ++ ".response.json"

/-- The mutable run state: `args.sleep_duration` (a Python float,
modelled as an exact rational) and the counter
`n_requests_until_fail`. -/
structure RunState where
  sleep_duration : ℚ
  n_requests_until_fail : Nat
  deriving DecidableEq

/-- The `while True` retry loop for one window: on success, write the
artifact, sleep, increment `n_requests_until_fail` and `break`; on the
exception, sleep `retry_duration`, reset `n_requests_until_fail` to 0
and grow `sleep_duration` by `0.01`. -/
def retryWindow (start_time end_time : String) :
    RunState → List Bool → List Event × Option (RunState × List Bool)
  | _, [] => ([], none)
  | st, ok :: rest =>
    if ok then
      ([Event.request start_time end_time,
        Event.write (response_fn start_time end_time)],
        some ({ st with
          n_requests_until_fail := st.n_requests_until_fail + 1 }, rest))
    else
      let r := retryWindow start_time end_time
        { sleep_duration := st.sleep_duration + 1/100,
          n_requests_until_fail := 0 } rest
      (Event.request start_time end_time ::
        Event.fail start_time end_time :: r.1, r.2)

/-- The loop over `day_periods`: a window whose `response_fn` is in the
startup scan `responses_collected` is skipped (`Found ... continue`);
otherwise it goes through the retry loop. -/
def fetchLoop (collected : List String) :
    List (String × String) → RunState → List Bool → List Event × Option RunState
  | [], st, _ => ([], some st)
  | w :: ws, st, outs =>
    let fn := response_fn w.1 w.2
    if fn ∈ collected then
      let r := fetchLoop collected ws st outs
      (Event.found fn :: r.1, r.2)
    else
      match retryWindow w.1 w.2 st outs with
      | (evs, none) => (evs, none)
      | (evs, some (st', outs')) =>
        let r := fetchLoop collected ws st' outs'
        (evs ++ r.1, r.2)

/-- The tail of `__main__` after the query is built: the query-length
guard (`if len(query_string) > 1024`) only prints and skips the whole
fetch section, otherwise the windows of `get_periods` are fetched.
`fmtW` abstracts the `strftime` rendering of a window to the
`(start_time, end_time)` strings. -/
def sampler_run (query_string : String) (fmtW : Nat × Nat → String × String)
    (time_range : String) (now sy ey : Nat) (collected : List String)
    (st : RunState) (outs : List Bool) : List Event :=
  if query_string.length > 1024 then []
  else
    (fetchLoop collected
      (((get_periods time_range now sy ey).flatten).map fmtW) st outs).1

def requestedWindows (evs : List Event) : List (String × String) :=
  evs.filterMap fun e => match e with
    | Event.request s t => some (s, t)
    | _ => none

def writtenFiles (evs : List Event) : List String :=
  evs.filterMap fun e => match e with
    | Event.write fn => some fn
    | _ => none

def foundFiles (evs : List Event) : List String :=
  evs.filterMap fun e => match e with
    | Event.found fn => some fn
    | _ => none

def isFailEvent : Event → Bool
  | Event.fail _ _ => true
  | _ => false

def failCount (evs : List Event) : Nat := evs.countP isFailEvent

/-! ## The artifact write (`persist`)

`with open(os.path.join(args.dir, response_fn), 'w') as jl_f:
json.dump(wrapped_response, jl_f, indent=4)` — opening with mode `'w'`
creates (truncates) the file under its final name at once, and the JSON
body is streamed afterwards.  Modelled as two filesystem steps; an
interruption is a prefix of the step list. -/

inductive FsOp where
  | create (fn : String)
  | writeAll (fn : String)
  deriving DecidableEq

def persistOps (fn : String) : List FsOp :=
  [FsOp.create fn, FsOp.writeAll fn]

/-- Directory contents as `(filename, content complete?)` pairs. -/
def applyOp (files : List (String × Bool)) : FsOp → List (String × Bool)
  | FsOp.create fn => (fn, false) :: files
  | FsOp.writeAll fn => files.map fun f => if f.1 = fn then (fn, true) else f

def runOps (ops : List FsOp) : List (String × Bool) := ops.foldl applyOp []

/-- The startup scan (`fn.endswith('.response.json')`) keys on the name
only. -/
def scan_matches (fn : String) : Bool :=
  ".response.json".data.isSuffixOf fn.data

/-- The windows of a run whose artifact filename is not in the startup
scan (the ones the loop must attempt). -/
def pendingWindows (collected : List String)
    (ws : List (String × String)) : List (String × String) :=
  ws.filter fun w => !decide (response_fn w.1 w.2 ∈ collected)

/-- The windows of a run whose artifact filename is already in the
startup scan (the ones the loop must skip). -/
def skippedWindows (collected : List String)
    (ws : List (String × String)) : List (String × String) :=
  ws.filter fun w => decide (response_fn w.1 w.2 ∈ collected)

/-! ## Decompositions of `check_invalid_date` used in the proofs

`check_invalid_date` is the disjunction of calendar invalidity and the
90-minute recency rejection; the two parts are named separately per
granularity. -/

def dayValid (c : Nat × Nat × Nat) : Bool :=
  decide (isValidDateHour c.1 c.2.1 c.2.2 0)

def dayRec (now : Nat) (c : Nat × Nat × Nat) : Bool :=
  decide (toSecs c.1 c.2.1 c.2.2 0 + 5400 ≤ now)

def hourValid (c : Nat × Nat × Nat × Nat) : Bool :=
  decide (isValidDateHour c.1 c.2.1 c.2.2.1 c.2.2.2)

def hourRec (now : Nat) (c : Nat × Nat × Nat × Nat) : Bool :=
  decide (toSecs c.1 c.2.1 c.2.2.1 c.2.2.2 + 5400 ≤ now)

def monthValid (c : Nat × Nat) : Bool := decide (isValidDateHour c.1 c.2 1 0)

def monthRec (now : Nat) (c : Nat × Nat) : Bool :=
  decide (monthlyStart c + 5400 ≤ now)

def yearValid (y : Nat) : Bool := decide (isValidDateHour y 1 1 0)

def yearRec (now y : Nat) : Bool := decide (yearlyStart y + 5400 ≤ now)

/-- The key pairwise hypothesis of the loop refinement: once a
calendar-valid candidate fails the recency test all later ones do, and a
calendar-valid candidate whose end lies in the future kills the recency
test of all later ones. -/
def LoopK (now : Nat) (cal rec : α → Bool) (ef : α → Nat) (c c' : α) : Prop :=
  cal c = true → cal c' = true →
    ((rec c = false → rec c' = false) ∧
      (rec c = true → now < ef c → rec c' = false))

/-- The relation between consecutive monthly candidates: the previous
month's `end_time` is exactly one second before the next month's
`start_time`. -/
def MonthCM (c c' : Nat × Nat) : Prop :=
  monthlyEnd c + 1 = monthlyStart c' ∧ monthlyStart c < monthlyStart c'

/-! ## Lemmas about the retry loop and fetch loop -/

theorem retryWindow_success (s e : String) (st : RunState) (rest : List Bool) :
    retryWindow s e st (true :: rest) =
      ([Event.request s e, Event.write (response_fn s e)],
        some (⟨st.sleep_duration, st.n_requests_until_fail + 1⟩, rest)) := by
  simp [retryWindow]

theorem retryWindow_failure (s e : String) (st : RunState) (rest : List Bool) :
    retryWindow s e st (false :: rest) =
      (Event.request s e :: Event.fail s e ::
          (retryWindow s e ⟨st.sleep_duration + 1 / 100, 0⟩ rest).1,
        (retryWindow s e ⟨st.sleep_duration + 1 / 100, 0⟩ rest).2) := by
  simp [retryWindow]

theorem fetchLoop_nil (collected : List String) (st : RunState)
    (outs : List Bool) : fetchLoop collected [] st outs = ([], some st) := rfl

theorem fetchLoop_cons_found (collected : List String) (w : String × String)
    (ws : List (String × String)) (st : RunState) (outs : List Bool)
    (hmem : response_fn w.1 w.2 ∈ collected) :
    fetchLoop collected (w :: ws) st outs =
      (Event.found (response_fn w.1 w.2) :: (fetchLoop collected ws st outs).1,
        (fetchLoop collected ws st outs).2) := by
  simp [fetchLoop, hmem]

theorem fetchLoop_cons_pending (collected : List String) (w : String × String)
    (ws : List (String × String)) (st : RunState) (outs : List Bool)
    (evs₀ : List Event) (hmem : response_fn w.1 w.2 ∉ collected)
    (hrw : retryWindow w.1 w.2 st outs = (evs₀, none)) :
    fetchLoop collected (w :: ws) st outs = (evs₀, none) := by
  simp [fetchLoop, hmem, hrw]

theorem fetchLoop_cons_progress (collected : List String) (w : String × String)
    (ws : List (String × String)) (st : RunState) (outs : List Bool)
    (evs₀ : List Event) (stm : RunState) (outs' : List Bool)
    (hmem : response_fn w.1 w.2 ∉ collected)
    (hrw : retryWindow w.1 w.2 st outs = (evs₀, some (stm, outs'))) :
    fetchLoop collected (w :: ws) st outs =
      (evs₀ ++ (fetchLoop collected ws stm outs').1,
        (fetchLoop collected ws stm outs').2) := by
  simp [fetchLoop, hmem, hrw]

theorem failCount_cons_request (s e : String) (evs : List Event) :
    failCount (Event.request s e :: evs) = failCount evs := by
  simp [failCount, isFailEvent, List.countP_cons]

theorem failCount_cons_fail (s e : String) (evs : List Event) :
    failCount (Event.fail s e :: evs) = failCount evs + 1 := by
  simp [failCount, isFailEvent, List.countP_cons]

theorem retryWindow_state (s e : String) (outs : List Bool) :
    ∀ (st : RunState) (evs : List Event) (st' : RunState) (rest : List Bool),
      retryWindow s e st outs = (evs, some (st', rest)) →
      st'.sleep_duration = st.sleep_duration + failCount evs * (1 / 100) ∧
      st'.n_requests_until_fail =
        (if failCount evs = 0 then st.n_requests_until_fail + 1 else 1) := by
  induction outs with
  | nil => intro st evs st' rest h; simp [retryWindow] at h
  | cons ok outs ih =>
    intro st evs st' rest h
    cases ok with
    | true =>
      rw [retryWindow_success] at h
      injection h with he hp
      injection hp with hp
      injection hp with hst hrest
      subst he
      rw [← hst]
      simp [failCount, isFailEvent, List.countP_cons]
    | false =>
      rw [retryWindow_failure] at h
      rcases hr : retryWindow s e ⟨st.sleep_duration + 1 / 100, 0⟩ outs
        with ⟨evs₁, r₁⟩
      rw [hr] at h
      dsimp only at h
      injection h with he hp
      subst he
      cases r₁ with
      | none => simp at hp
      | some p =>
        rcases p with ⟨stm, restm⟩
        injection hp with hp
        injection hp with h1 h2
        subst h1
        subst h2
        obtain ⟨ih1, ih2⟩ := ih _ _ _ _ hr
        constructor
        · rw [failCount_cons_request, failCount_cons_fail, ih1]
          push_cast
          ring
        · rw [failCount_cons_request, failCount_cons_fail, ih2]
          by_cases h0 : failCount evs₁ = 0 <;> simp [h0]

theorem fetchLoop_state (collected : List String)
    (ws : List (String × String)) :
    ∀ (st : RunState) (outs : List Bool) (evs : List Event) (st' : RunState),
      fetchLoop collected ws st outs = (evs, some st') →
      st'.sleep_duration = st.sleep_duration + failCount evs * (1 / 100) := by
  induction ws with
  | nil =>
    intro st outs evs st' h
    rw [fetchLoop_nil] at h
    injection h with he hp
    injection hp with hp
    subst he
    rw [← hp]
    simp [failCount]
  | cons w ws ih =>
    intro st outs evs st' h
    by_cases hmem : response_fn w.1 w.2 ∈ collected
    · rw [fetchLoop_cons_found collected w ws st outs hmem] at h
      rcases hr : fetchLoop collected ws st outs with ⟨evs₁, r₁⟩
      rw [hr] at h
      dsimp only at h
      injection h with he hp
      subst he
      cases r₁ with
      | none => simp at hp
      | some p =>
        injection hp with hp
        subst hp
        have := ih st outs evs₁ p hr
        rw [this]
        simp [failCount, isFailEvent, List.countP_cons]
    · rcases hrw : retryWindow w.1 w.2 st outs with ⟨evs₀, r₀⟩
      cases r₀ with
      | none =>
        rw [fetchLoop_cons_pending collected w ws st outs evs₀ hmem hrw] at h
        injection h with he hp
        simp at hp
      | some p =>
        rcases p with ⟨stm, restm⟩
        rw [fetchLoop_cons_progress collected w ws st outs evs₀ stm restm hmem
          hrw] at h
        rcases hr : fetchLoop collected ws stm restm with ⟨evs₁, r₁⟩
        rw [hr] at h
        dsimp only at h
        injection h with he hp
        subst he
        cases r₁ with
        | none => simp at hp
        | some q =>
          injection hp with hp
          subst hp
          have h1 := (retryWindow_state w.1 w.2 outs st evs₀ stm restm hrw).1
          have h2 := ih stm restm evs₁ q hr
          rw [h2, h1]
          have hfc : failCount (evs₀ ++ evs₁) = failCount evs₀ + failCount evs₁ := by
            simp [failCount, List.countP_append]
          rw [hfc]
          push_cast
          ring

theorem retryWindow_request_mem (s e : String) (outs : List Bool) :
    ∀ (st : RunState) (w : String × String),
      w ∈ requestedWindows (retryWindow s e st outs).1 → w = (s, e) := by
  induction outs with
  | nil => intro st w h; simp [retryWindow, requestedWindows] at h
  | cons ok outs ih =>
    intro st w h
    cases ok with
    | true =>
      rw [retryWindow_success] at h
      simp only [requestedWindows, List.filterMap_cons] at h
      simp at h
      exact h.symm ▸ rfl
    | false =>
      rw [retryWindow_failure] at h
      simp only [requestedWindows, List.filterMap_cons] at h
      rcases List.mem_cons.mp h with h1 | h2
      · exact h1
      · exact ih _ w h2

theorem fetchLoop_request_mem (collected : List String)
    (ws : List (String × String)) :
    ∀ (st : RunState) (outs : List Bool) (w : String × String),
      w ∈ requestedWindows (fetchLoop collected ws st outs).1 →
      w ∈ ws ∧ response_fn w.1 w.2 ∉ collected := by
  induction ws with
  | nil => intro st outs w h; simp [fetchLoop_nil, requestedWindows] at h
  | cons wh ws ih =>
    intro st outs w h
    by_cases hmem : response_fn wh.1 wh.2 ∈ collected
    · rw [fetchLoop_cons_found collected wh ws st outs hmem] at h
      simp only [requestedWindows, List.filterMap_cons] at h
      obtain ⟨hw, hnc⟩ := ih st outs w h
      exact ⟨List.mem_cons_of_mem _ hw, hnc⟩
    · rcases hrw : retryWindow wh.1 wh.2 st outs with ⟨evs₀, r₀⟩
      cases r₀ with
      | none =>
        rw [fetchLoop_cons_pending collected wh ws st outs evs₀ hmem hrw] at h
        have hw : w = (wh.1, wh.2) := by
          apply retryWindow_request_mem wh.1 wh.2 outs st w
          rw [hrw]
          exact h
        subst hw
        exact ⟨List.mem_cons_self _ _, hmem⟩
      | some p =>
        rcases p with ⟨stm, restm⟩
        rw [fetchLoop_cons_progress collected wh ws st outs evs₀ stm restm
          hmem hrw] at h
        simp only [requestedWindows, List.filterMap_append] at h
        rcases List.mem_append.mp h with h1 | h2
        · have hw : w = (wh.1, wh.2) := by
            apply retryWindow_request_mem wh.1 wh.2 outs st w
            rw [hrw]
            exact h1
          subst hw
          exact ⟨List.mem_cons_self _ _, hmem⟩
        · obtain ⟨hw, hnc⟩ := ih stm restm w h2
          exact ⟨List.mem_cons_of_mem _ hw, hnc⟩

theorem fetchLoop_resume_exact (collected : List String)
    (ws : List (String × String)) :
    ∀ st : RunState,
      requestedWindows (fetchLoop collected ws st
          (List.replicate (pendingWindows collected ws).length true)).1 =
        pendingWindows collected ws ∧
      writtenFiles (fetchLoop collected ws st
          (List.replicate (pendingWindows collected ws).length true)).1 =
        (pendingWindows collected ws).map (fun w => response_fn w.1 w.2) ∧
      foundFiles (fetchLoop collected ws st
          (List.replicate (pendingWindows collected ws).length true)).1 =
        (skippedWindows collected ws).map (fun w => response_fn w.1 w.2) ∧
      (fetchLoop collected ws st
          (List.replicate (pendingWindows collected ws).length true)).2.isSome
        = true := by
  induction ws with
  | nil =>
    intro st
    simp [pendingWindows, skippedWindows, fetchLoop_nil, requestedWindows,
      writtenFiles, foundFiles]
  | cons wh ws ih =>
    intro st
    by_cases hmem : response_fn wh.1 wh.2 ∈ collected
    · have hpend : pendingWindows collected (wh :: ws) =
          pendingWindows collected ws := by
        simp [pendingWindows, List.filter_cons, hmem]
      have hskip : skippedWindows collected (wh :: ws) =
          wh :: skippedWindows collected ws := by
        simp [skippedWindows, List.filter_cons, hmem]
      rw [hpend, hskip, fetchLoop_cons_found collected wh ws st _ hmem]
      obtain ⟨h1, h2, h3, h4⟩ := ih st
      refine ⟨?_, ?_, ?_, ?_⟩
      · simpa only [requestedWindows, List.filterMap_cons] using h1
      · simpa only [writtenFiles, List.filterMap_cons] using h2
      · simp only [foundFiles, List.filterMap_cons, List.map_cons]
        simpa only [foundFiles] using congrArg (List.cons (response_fn wh.1 wh.2)) h3
      · exact h4
    · have hpend : pendingWindows collected (wh :: ws) =
          wh :: pendingWindows collected ws := by
        simp [pendingWindows, List.filter_cons, hmem]
      have hskip : skippedWindows collected (wh :: ws) =
          skippedWindows collected ws := by
        simp [skippedWindows, List.filter_cons, hmem]
      rw [hpend, hskip]
      rw [show List.replicate (wh :: pendingWindows collected ws).length true =
          true :: List.replicate (pendingWindows collected ws).length true by
        simp [List.replicate_succ]]
      rw [fetchLoop_cons_progress collected wh ws st _ _ _ _ hmem
        (retryWindow_success wh.1 wh.2 st _)]
      obtain ⟨h1, h2, h3, h4⟩ := ih ⟨st.sleep_duration, st.n_requests_until_fail + 1⟩
      refine ⟨?_, ?_, ?_, ?_⟩
      · simp only [requestedWindows, List.filterMap_append, List.filterMap_cons,
          List.filterMap_nil]
        simp only [requestedWindows] at h1
        rw [h1]
        rfl
      · simp only [writtenFiles, List.filterMap_append, List.filterMap_cons,
          List.filterMap_nil, List.map_cons]
        simp only [writtenFiles] at h2
        rw [h2]
        rfl
      · simp only [foundFiles, List.filterMap_append, List.filterMap_cons,
          List.filterMap_nil]
        simpa only [foundFiles] using h3
      · exact h4

/-! ## Claim theorems for the fetch loop (C1, C2, C5, C6, C7, C8) -/

/-- C1 (counterexample): the claim "the failure counter is reset to 0 on
any successful request — after 3 consecutive remote failures followed by
1 success on the same window the counter is 0" is false on the code: the
code resets `n_requests_until_fail` on *failure* and increments it on
success, so after a `[fail, fail, fail, success]` run the counter is 1,
not 0. -/
theorem failure_counter_claim_counterexample :
    ((retryWindow "a" "b" ⟨5, 0⟩ [false, false, false, true]).2.map
      fun p => p.1.n_requests_until_fail) ≠ some 0 := by decide

/-- C1 (amended): after a successful request the counter
`n_requests_until_fail` is incremented by 1 (not reset); it is reset to
0 on every failed request; consequently after 3 consecutive failures
followed by 1 success on the same window the counter equals 1. -/
theorem failure_counter_semantics :
    (∀ (s e : String) (st : RunState) (rest : List Bool),
      (retryWindow s e st (true :: rest)).2 =
        some (⟨st.sleep_duration, st.n_requests_until_fail + 1⟩, rest)) ∧
    (∀ (s e : String) (st : RunState) (rest : List Bool),
      (retryWindow s e st (false :: rest)).2 =
        (retryWindow s e ⟨st.sleep_duration + 1 / 100, 0⟩ rest).2) ∧
    ((retryWindow "a" "b" ⟨5, 0⟩ [false, false, false, true]).2.map
      fun p => p.1.n_requests_until_fail) = some 1 :=
  ⟨fun s e st rest => by rw [retryWindow_success],
   fun s e st rest => by rw [retryWindow_failure],
   by decide⟩

/-- C2 (counterexample): with empty stop words, no filters and options
`"opt"`, `build_query` does not return `"opt"`: `end_string` starts as
the separator `' '`, so a leading space survives. -/
theorem build_query_empty_counterexample :
    build_query [] none none none none none "opt" ≠ "opt" := by decide

/-- C2 (amended): with empty stop words, no language filter, no geo
filter and options `"opt"`, `build_query` returns `" opt"` (one leading
space before the options); with stop words `["a", "b"]`, language filter
`lang:en` and options `"opt"` it returns `'("a" OR "b") lang:en opt'`
exactly as the spec states. -/
theorem build_query_examples :
    build_query [] none none none none none "opt" = " opt" ∧
    build_query ["a", "b"] (some "lang:en") none none none none "opt" =
      "(\"a\" OR \"b\") lang:en opt" :=
  ⟨by decide, by decide⟩

/-- C5: when the composed query exceeds 1024 characters the run only
reports (the `print` branch) and performs no fetch: no remote request is
issued and no artifact is written. -/
theorem query_length_guard (query_string : String)
    (fmtW : Nat × Nat → String × String) (time_range : String)
    (now sy ey : Nat) (collected : List String) (st : RunState)
    (outs : List Bool) (h : 1024 < query_string.length) :
    requestedWindows (sampler_run query_string fmtW time_range now sy ey
        collected st outs) = [] ∧
    writtenFiles (sampler_run query_string fmtW time_range now sy ey
        collected st outs) = [] := by
  unfold sampler_run
  rw [if_pos h]
  exact ⟨rfl, rfl⟩

theorem query_length_guard_witness :
    requestedWindows (sampler_run (String.mk (List.replicate 1025 'x'))
        (fun _ => ("", "")) "hourly" 0 2022 2022 [] ⟨5, 0⟩ []) = [] ∧
    writtenFiles (sampler_run (String.mk (List.replicate 1025 'x'))
        (fun _ => ("", "")) "hourly" 0 2022 2022 [] ⟨5, 0⟩ []) = [] :=
  query_length_guard (String.mk (List.replicate 1025 'x'))
    (fun _ => ("", "")) "hourly" 0 2022 2022 [] ⟨5, 0⟩ []
    (by rw [String.length_mk, List.length_replicate]; norm_num)

/-- C6: on a partially populated output location the loop skips exactly
the windows whose artifact filename (start and end with colons removed,
joined by `_`, suffix `.response.json`) is present at startup and
attempts exactly the remaining windows in generation order: on an
oracle of all-successful outcomes the requested windows are exactly
`pendingWindows` (in order), one artifact is written per pending window
(in order), the `Found` skips are exactly `skippedWindows` (in order),
and the run completes; moreover under any outcome oracle only windows
whose artifact is absent are ever requested. -/
theorem resume_skips_exactly (collected : List String)
    (ws : List (String × String)) (st : RunState) :
    (requestedWindows (fetchLoop collected ws st
          (List.replicate (pendingWindows collected ws).length true)).1 =
        pendingWindows collected ws ∧
      writtenFiles (fetchLoop collected ws st
          (List.replicate (pendingWindows collected ws).length true)).1 =
        (pendingWindows collected ws).map (fun w => response_fn w.1 w.2) ∧
      foundFiles (fetchLoop collected ws st
          (List.replicate (pendingWindows collected ws).length true)).1 =
        (skippedWindows collected ws).map (fun w => response_fn w.1 w.2) ∧
      (fetchLoop collected ws st
          (List.replicate (pendingWindows collected ws).length true)).2.isSome
        = true) ∧
    ∀ (outs : List Bool) (w : String × String),
      w ∈ requestedWindows (fetchLoop collected ws st outs).1 →
      w ∈ ws ∧ response_fn w.1 w.2 ∉ collected :=
  ⟨fetchLoop_resume_exact collected ws st,
   fun outs w => fetchLoop_request_mem collected ws st outs w⟩

/-- C7: over a completed run, `sleep_duration` grows by exactly `0.01`
per remote failure: the final value is the initial value plus
`failCount * 1/100`; it never decreases, and after at least one failure
(followed by the successes that complete the run) it is strictly larger
than before the first failure. -/
theorem sleep_duration_backoff (collected : List String)
    (ws : List (String × String)) (st : RunState) (outs : List Bool)
    (evs : List Event) (st' : RunState)
    (h : fetchLoop collected ws st outs = (evs, some st')) :
    st'.sleep_duration = st.sleep_duration + failCount evs * (1 / 100) ∧
    st.sleep_duration ≤ st'.sleep_duration ∧
    (1 ≤ failCount evs → st.sleep_duration < st'.sleep_duration) := by
  have h1 := fetchLoop_state collected ws st outs evs st' h
  refine ⟨h1, ?_, ?_⟩
  · rw [h1]
    have hpos : (0 : ℚ) ≤ (failCount evs : ℚ) * (1 / 100) := by positivity
    linarith
  · intro hf
    rw [h1]
    have hge : (1 : ℚ) ≤ (failCount evs : ℚ) := by exact_mod_cast hf
    nlinarith

theorem sleep_duration_backoff_witness :
    (⟨(5 : ℚ) + 1 / 100, 0 + 1⟩ : RunState).sleep_duration =
        (⟨5, 0⟩ : RunState).sleep_duration +
          failCount [Event.request "a" "b", Event.fail "a" "b",
            Event.request "a" "b", Event.write (response_fn "a" "b")] *
            (1 / 100) ∧
    (⟨5, 0⟩ : RunState).sleep_duration ≤
      (⟨(5 : ℚ) + 1 / 100, 0 + 1⟩ : RunState).sleep_duration ∧
    (1 ≤ failCount [Event.request "a" "b", Event.fail "a" "b",
        Event.request "a" "b", Event.write (response_fn "a" "b")] →
      (⟨5, 0⟩ : RunState).sleep_duration <
        (⟨(5 : ℚ) + 1 / 100, 0 + 1⟩ : RunState).sleep_duration) :=
  sleep_duration_backoff [] [("a", "b")] ⟨5, 0⟩ [false, true]
    [Event.request "a" "b", Event.fail "a" "b",
      Event.request "a" "b", Event.write (response_fn "a" "b")]
    ⟨(5 : ℚ) + 1 / 100, 0 + 1⟩ rfl

/-- C8 (counterexample): the claim "a partially written artifact is
never observable under a name that a subsequent run's scan would
mistake for a complete artifact" is false on the code: `json.dump` is
streamed into a file opened under the final `.response.json` name, so
interrupting right after the `open` leaves an incomplete file whose
name the scan accepts. -/
theorem persist_atomicity_counterexample :
    ¬ (∀ f ∈ runOps ((persistOps (response_fn "2020-01-01T00:00:00Z"
        "2020-01-01T01:00:00Z")).take 1),
        scan_matches f.1 = true → f.2 = true) := by decide

/-- C8 (amended): `persist` is not atomic: the artifact is created
directly under its final name (no temporary name and rename), so an
interruption between the `open` and the completed `json.dump` leaves a
partial file which a subsequent run's `.response.json` scan counts as
collected. -/
theorem persist_writes_final_name (s e : String) :
    persistOps (response_fn s e) =
      [FsOp.create (response_fn s e), FsOp.writeAll (response_fn s e)] ∧
    runOps ((persistOps (response_fn s e)).take 1) =
      [(response_fn s e, false)] ∧
    scan_matches (response_fn s e) = true := by
  refine ⟨rfl, rfl, ?_⟩
  have hdata : (response_fn s e).data =
      (stripColons s ++ "_" ++ stripColons e).data ++ ".response.json".data := by
    simp [response_fn]
  simp only [scan_matches, hdata, List.isSuffixOf_iff_suffix]
  exact ⟨(stripColons s).data ++ "_".data ++ (stripColons e).data, by simp⟩

/-! ## Calendar arithmetic lemmas -/

theorem daysInMonth_pos (y m : Nat) : 1 ≤ daysInMonth y m := by
  unfold daysInMonth
  split
  · split <;> omega
  · split <;> omega

theorem daysInMonth_le (y m : Nat) : daysInMonth y m ≤ 31 := by
  unfold daysInMonth
  split
  · split <;> omega
  · split <;> omega

theorem daysBeforeMonth_succ (y : Nat) :
    ∀ m : Nat, 1 ≤ m →
      daysBeforeMonth y (m + 1) = daysBeforeMonth y m + daysInMonth y m
  | 0, h => absurd h (by decide)
  | _ + 1, _ => rfl

theorem daysBeforeMonth_13 (y : Nat) :
    daysBeforeMonth y 13 = daysInYear y := by
  have h337 : daysBeforeMonth y 13 = 337 + daysInMonth y 2 := by
    simp only [daysBeforeMonth]
    simp [daysInMonth]
    omega
  rw [h337]
  unfold daysInMonth daysInYear
  cases h : isLeap y <;> simp [h]

theorem daysInYear_ge (y : Nat) : 365 ≤ daysInYear y := by
  unfold daysInYear; split <;> omega

theorem daysBeforeYear_mono : ∀ {a b : Nat}, a ≤ b →
    daysBeforeYear a ≤ daysBeforeYear b := by
  intro a b h
  induction b with
  | zero =>
    have ha : a = 0 := Nat.le_zero.mp h
    subst ha
    exact Nat.le_refl _
  | succ b ih =>
    by_cases h' : a ≤ b
    · calc daysBeforeYear a ≤ daysBeforeYear b := ih h'
        _ ≤ daysBeforeYear (b + 1) := by
          show _ ≤ daysBeforeYear b + daysInYear b
          omega
    · have : a = b + 1 := by omega
      subst this
      exact Nat.le_refl _

theorem daysBeforeYear_one : daysBeforeYear 1 = 366 := by decide

theorem toSecs_pos (y m d h : Nat) (hy : 1 ≤ y) : 366 * 86400 ≤ toSecs y m d h := by
  unfold toSecs
  have h1 : 366 ≤ daysBeforeYear y := by
    have := daysBeforeYear_mono hy
    rw [daysBeforeYear_one] at this
    exact this
  nlinarith

theorem toSecs_hour_succ (y m d h : Nat) :
    toSecs y m d (h + 1) = toSecs y m d h + 3600 := by
  unfold toSecs; ring

theorem toSecs_day_succ (y m d : Nat) (hd : 1 ≤ d) :
    toSecs y m (d + 1) 0 = toSecs y m d 0 + 86400 := by
  unfold toSecs
  have h1 : d + 1 - 1 = (d - 1) + 1 := by omega
  rw [h1]
  ring

theorem toSecs_month_first (y m : Nat) (hm : 1 ≤ m) :
    toSecs y (m + 1) 1 0 = toSecs y m (daysInMonth y m) 0 + 86400 := by
  unfold toSecs
  rw [daysBeforeMonth_succ y m hm]
  have h1 := daysInMonth_pos y m
  have h2 : daysInMonth y m - 1 + 1 = daysInMonth y m := by omega
  omega

theorem toSecs_year_first (y : Nat) :
    toSecs (y + 1) 1 1 0 = toSecs y 12 (daysInMonth y 12) 0 + 86400 := by
  unfold toSecs
  have hy : daysBeforeYear (y + 1) = daysBeforeYear y + daysInYear y := rfl
  rw [hy, ← daysBeforeMonth_13 y, daysBeforeMonth_succ y 12 (by omega)]
  have h1 := daysInMonth_pos y 12
  have h2 : daysBeforeMonth (y + 1) 1 = 0 := rfl
  have h3 : daysBeforeMonth y 1 = 0 := rfl
  omega

/-! ## Generic list lemmas -/

theorem takeWhile_append_all {p : α → Bool} :
    ∀ (A B : List α), (∀ a ∈ A, p a = true) →
      (A ++ B).takeWhile p = A ++ B.takeWhile p
  | [], B, _ => by simp
  | x :: A, B, h => by
    have hx : p x = true := h x (by simp)
    simp only [List.cons_append, List.takeWhile_cons, hx, if_pos]
    rw [takeWhile_append_all A B (fun a ha => h a (by simp [ha]))]

theorem takeWhile_append_cut {p : α → Bool} :
    ∀ (A B : List α) (a : α), a ∈ A → p a = false →
      (A ++ B).takeWhile p = A.takeWhile p
  | [], _, a, ha, _ => by simp at ha
  | x :: A, B, a, ha, hpa => by
    by_cases hx : p x = true
    · have hmem : a ∈ A := by
        rcases List.mem_cons.mp ha with rfl | h
        · rw [hx] at hpa; cases hpa
        · exact h
      simp only [List.cons_append, List.takeWhile_cons, hx, if_pos]
      rw [takeWhile_append_cut A B a hmem hpa]
    · have hx' : p x = false := by
        cases h : p x
        · rfl
        · exact absurd h hx
      simp [List.takeWhile_cons, hx']

theorem takeWhile_nil_of_all {p : α → Bool} :
    ∀ (B : List α), (∀ b ∈ B, p b = false) → B.takeWhile p = []
  | [], _ => rfl
  | x :: B, h => by
    have := h x (by simp)
    simp [List.takeWhile_cons, this]

theorem filter_eq_takeWhile_of_mono {p : α → Bool} :
    ∀ l : List α, l.Pairwise (fun a b => p a = false → p b = false) →
      l.filter p = l.takeWhile p
  | [], _ => rfl
  | x :: l, h => by
    obtain ⟨hx, hl⟩ := List.pairwise_cons.mp h
    by_cases hpx : p x = true
    · rw [List.filter_cons_of_pos hpx, List.takeWhile_cons_of_pos hpx,
        filter_eq_takeWhile_of_mono l hl]
    · have hpx' : p x = false := by
        cases h' : p x
        · rfl
        · exact absurd h' hpx
      rw [List.filter_cons_of_neg hpx, List.takeWhile_cons_of_neg hpx]
      exact List.filter_eq_nil_iff.mpr fun a ha hpa =>
        by rw [hx a ha hpx'] at hpa; cases hpa

theorem chain'_trans_pairwise {R : α → α → Prop} {P : α → Prop}
    (htr : ∀ a b c, R a b → P b → R b c → R a c) :
    ∀ l : List α, l.Chain' R → (∀ a ∈ l, P a) → l.Pairwise R
  | [], _, _ => List.Pairwise.nil
  | [a], _, _ => by simp
  | a :: b :: l, hc, hP => by
    have hcr := List.chain'_cons.mp hc
    have ihp := chain'_trans_pairwise htr (b :: l) hcr.2
      (fun x hx => hP x (List.mem_cons_of_mem _ hx))
    refine List.pairwise_cons.mpr ⟨?_, ihp⟩
    intro c hc'
    rcases List.mem_cons.mp hc' with rfl | hcl
    · exact hcr.1
    · have hRbc : R b c := (List.pairwise_cons.mp ihp).1 c hcl
      exact htr a b c hcr.1 (hP b (by simp)) hRbc

theorem chain'_and_of_forall {R : α → α → Prop} {p : α → Bool} :
    ∀ l : List α, l.Chain' R → (∀ a ∈ l, p a = true) →
      l.Chain' (fun a b => R a b ∧ p a = true ∧ p b = true)
  | [], _, _ => List.chain'_nil
  | [a], _, _ => by simp
  | a :: b :: l, hc, hP => by
    have hcr := List.chain'_cons.mp hc
    refine List.chain'_cons.mpr ⟨⟨hcr.1, hP a (by simp), hP b (by simp)⟩, ?_⟩
    exact chain'_and_of_forall (b :: l) hcr.2
      (fun x hx => hP x (List.mem_cons_of_mem _ hx))

theorem chain'_range'_step (step : Nat) :
    ∀ (n s : Nat), (List.range' s n step).Chain' (fun a b => b = a + step)
  | 0, s => by simp
  | n + 1, s => by
    rw [List.range'_succ]
    refine List.chain'_cons'.mpr ⟨?_, chain'_range'_step step n (s + step)⟩
    intro y hy
    cases n with
    | zero => simp at hy
    | succ k =>
      rw [List.range'_succ] at hy
      simp at hy
      omega

theorem flatMap_range'_blocks (k c : Nat) :
    ∀ (n a : Nat),
      (List.range' a n (k * c)).flatMap (fun t => List.range' t k c) =
        List.range' a (n * k) c
  | 0, a => by simp
  | n + 1, a => by
    rw [List.range'_succ, List.flatMap_cons,
      flatMap_range'_blocks k c n (a + k * c)]
    have h := List.range'_append a k (n * k) c
    rw [show a + c * k = a + k * c by ring] at h
    rw [h]
    congr 1
    ring

theorem flatten_flatMap_map (L : List α) (f : α → List β) (g : α → β → List γ) :
    (L.flatMap fun y => (f y).map (g y)).flatten =
      L.flatMap fun y => (f y).flatMap (g y) := by
  induction L with
  | nil => rfl
  | cons x L ih =>
    rw [List.flatMap_cons, List.flatMap_cons, List.flatten_append, ih]
    rfl

theorem flatMap_ite_filter {p : α → Bool} (f : α → List β) :
    ∀ l : List α,
      (l.flatMap fun x => if p x then f x else []) = (l.filter p).flatMap f
  | [] => rfl
  | x :: l => by
    rw [List.flatMap_cons, flatMap_ite_filter f l]
    by_cases hx : p x = true
    · rw [if_pos hx, List.filter_cons_of_pos hx, List.flatMap_cons]
    · have hx' : ¬ p x := hx
      rw [if_neg hx, List.filter_cons_of_neg hx', List.nil_append]

/-! ## Characterisation of `check_invalid_date` -/

theorem check_invalid_eq (now y m d h : Nat) :
    check_invalid_date now y m d h =
      !(decide (isValidDateHour y m d h) &&
        decide (toSecs y m d h + 5400 ≤ now)) := by
  unfold check_invalid_date
  by_cases hv : isValidDateHour y m d h
  · rw [if_neg (by simpa using hv)]
    by_cases hr : (now : Int) - (toSecs y m d h : Int) < 90 * 60
    · rw [if_pos hr]
      have hn : ¬ (toSecs y m d h + 5400 ≤ now) := by omega
      simp [hv, hn]
    · rw [if_neg hr]
      have hn : toSecs y m d h + 5400 ≤ now := by omega
      simp [hv, hn]
  · rw [if_pos (by simpa using hv)]
    simp [hv]

theorem check_day_eq (now : Nat) (c : Nat × Nat × Nat) :
    check_invalid_date now c.1 c.2.1 c.2.2 0 =
      !(dayValid c && dayRec now c) := check_invalid_eq now c.1 c.2.1 c.2.2 0

theorem check_hour_eq (now : Nat) (c : Nat × Nat × Nat × Nat) :
    check_invalid_date now c.1 c.2.1 c.2.2.1 c.2.2.2 =
      !(hourValid c && hourRec now c) :=
  check_invalid_eq now c.1 c.2.1 c.2.2.1 c.2.2.2

theorem check_month_eq (now : Nat) (c : Nat × Nat) :
    check_invalid_date now c.1 c.2 1 0 =
      !(monthValid c && monthRec now c) := check_invalid_eq now c.1 c.2 1 0

theorem check_year_eq (now y : Nat) :
    check_invalid_date now y 1 1 0 = !(yearValid y && yearRec now y) :=
  check_invalid_eq now y 1 1 0

/-! ## The calendar enumeration lemmas: the valid day stamps of the
daily (and hourly) enumerations form an arithmetic progression. -/

theorem toSecs_month_stride (y m : Nat) (hm : 1 ≤ m) :
    toSecs y (m + 1) 1 0 = toSecs y m 1 0 + 86400 * daysInMonth y m := by
  unfold toSecs
  rw [daysBeforeMonth_succ y m hm]
  ring

theorem toSecs_year_stride (y : Nat) :
    toSecs (y + 1) 1 1 0 = toSecs y 1 1 0 + 86400 * daysInYear y := by
  unfold toSecs
  have hy : daysBeforeYear (y + 1) = daysBeforeYear y + daysInYear y := rfl
  have h2 : daysBeforeMonth (y + 1) 1 = 0 := rfl
  have h3 : daysBeforeMonth y 1 = 0 := rfl
  rw [hy, h2, h3]
  ring

theorem map_toSecs_range_days (y m : Nat) :
    ∀ (k d₀ : Nat), 1 ≤ d₀ →
      (List.range' d₀ k).map (fun d => toSecs y m d 0) =
        List.range' (toSecs y m d₀ 0) k 86400
  | 0, d₀, _ => by simp
  | k + 1, d₀, h => by
    rw [List.range'_succ, List.range'_succ, List.map_cons,
      map_toSecs_range_days y m k (d₀ + 1) (by omega),
      toSecs_day_succ y m d₀ h]

theorem map_range_affine (c : Nat) :
    ∀ (k a : Nat), (List.range k).map (fun i => a + i * c) =
      List.range' a k c
  | 0, a => by simp
  | k + 1, a => by
    rw [List.range_succ, List.range'_concat, List.map_append,
      map_range_affine c k a]
    simp [Nat.mul_comm]

theorem map_toSecs_hours (y m d : Nat) :
    hoursList.map (fun h => toSecs y m d h) =
      List.range' (toSecs y m d 0) 24 3600 := by
  unfold hoursList
  have h1 : ∀ h : Nat, toSecs y m d h = toSecs y m d 0 + h * 3600 := by
    intro h; unfold toSecs; ring
  calc (List.range 24).map (fun h => toSecs y m d h)
      = (List.range 24).map (fun h => toSecs y m d 0 + h * 3600) := by
        exact List.map_congr_left (fun h _ => h1 h)
    _ = List.range' (toSecs y m d 0) 24 3600 := map_range_affine 3600 24 _

theorem daysBeforeMonth_mono (y : Nat) : ∀ {a b : Nat}, 1 ≤ a → a ≤ b →
    daysBeforeMonth y a ≤ daysBeforeMonth y b := by
  intro a b h1 h
  induction b with
  | zero => omega
  | succ b ih =>
    by_cases h' : a ≤ b
    · have hb : 1 ≤ b := by omega
      calc daysBeforeMonth y a ≤ daysBeforeMonth y b := ih h'
        _ ≤ daysBeforeMonth y (b + 1) := by
          rw [daysBeforeMonth_succ y b hb]; omega
    · have : a = b + 1 := by omega
      subst this
      exact Nat.le_refl _

theorem filter_days_valid (y m : Nat) (hy : 1 ≤ y) (hm1 : 1 ≤ m)
    (hm2 : m ≤ 12) :
    (daysList.map fun d => (y, m, d)).filter dayValid =
      (List.range' 1 (daysInMonth y m)).map fun d => (y, m, d) := by
  rw [List.filter_map]
  have hsplit : daysList = List.range' 1 (daysInMonth y m) ++
      List.range' (1 + daysInMonth y m) (31 - daysInMonth y m) := by
    unfold daysList
    have h := List.range'_append 1 (daysInMonth y m)
      (31 - daysInMonth y m) 1
    have hle := daysInMonth_le y m
    rw [show 1 + 1 * daysInMonth y m = 1 + daysInMonth y m by ring] at h
    rw [show 31 - daysInMonth y m + daysInMonth y m = 31 by omega] at h
    exact h.symm
  rw [hsplit, List.filter_append]
  have h1 : (List.range' 1 (daysInMonth y m)).filter
      (dayValid ∘ fun d => (y, m, d)) = List.range' 1 (daysInMonth y m) := by
    apply List.filter_eq_self.mpr
    intro d hd
    rw [List.mem_range'_1] at hd
    simp only [Function.comp, dayValid, isValidDateHour, decide_eq_true_eq]
    omega
  have h2 : (List.range' (1 + daysInMonth y m) (31 - daysInMonth y m)).filter
      (dayValid ∘ fun d => (y, m, d)) = [] := by
    apply List.filter_eq_nil_iff.mpr
    intro d hd
    rw [List.mem_range'_1] at hd
    simp only [Function.comp, dayValid, isValidDateHour, decide_eq_true_eq]
    omega
  rw [h1, h2, List.append_nil]

theorem month_block (y : Nat) (hy : 1 ≤ y) :
    ∀ (k m₀ : Nat), 1 ≤ m₀ → m₀ + k ≤ 13 →
      (((List.range' m₀ k).flatMap fun m =>
          daysList.map fun d => (y, m, d)).filter dayValid).map dailyStart =
        List.range' (toSecs y m₀ 1 0)
          (daysBeforeMonth y (m₀ + k) - daysBeforeMonth y m₀) 86400
  | 0, m₀, _, _ => by simp
  | k + 1, m₀, h1, h2 => by
    rw [List.range'_succ, List.flatMap_cons, List.filter_append,
      List.map_append, filter_days_valid y m₀ hy h1 (by omega),
      month_block y hy k (m₀ + 1) (by omega) (by omega)]
    rw [List.map_map]
    have hmm : dailyStart ∘ (fun d => (y, m₀, d)) =
        fun d => toSecs y m₀ d 0 := rfl
    rw [hmm, map_toSecs_range_days y m₀ (daysInMonth y m₀) 1 (by omega)]
    have hstr := toSecs_month_stride y m₀ h1
    have hsucc := daysBeforeMonth_succ y m₀ h1
    have hmono : daysBeforeMonth y (m₀ + 1) ≤ daysBeforeMonth y (m₀ + 1 + k) := by
      exact daysBeforeMonth_mono y (by omega) (by omega)
    have happ := List.range'_append (toSecs y m₀ 1 0) (daysInMonth y m₀)
      (daysBeforeMonth y (m₀ + 1 + k) - daysBeforeMonth y (m₀ + 1)) 86400
    rw [show toSecs y m₀ 1 0 + 86400 * daysInMonth y m₀ =
        toSecs y (m₀ + 1) 1 0 by rw [hstr]] at happ
    rw [happ]
    rw [show m₀ + (k + 1) = m₀ + 1 + k by omega]
    congr 1
    omega

theorem year_block :
    ∀ (n y₀ : Nat), 1 ≤ y₀ →
      (((List.range' y₀ n).flatMap fun y => monthsList.flatMap fun m =>
          daysList.map fun d => (y, m, d)).filter dayValid).map dailyStart =
        List.range' (toSecs y₀ 1 1 0)
          (daysBeforeYear (y₀ + n) - daysBeforeYear y₀) 86400
  | 0, y₀, _ => by simp
  | n + 1, y₀, hy => by
    rw [List.range'_succ, List.flatMap_cons, List.filter_append,
      List.map_append, year_block n (y₀ + 1) (by omega)]
    have hmb := month_block y₀ hy 12 1 (by omega) (by omega)
    rw [show monthsList = List.range' 1 12 from rfl, hmb]
    rw [show daysBeforeMonth y₀ (1 + 12) = daysInYear y₀ from
      daysBeforeMonth_13 y₀]
    rw [show daysBeforeMonth y₀ 1 = 0 from rfl]
    have hstr := toSecs_year_stride y₀
    have hdby : daysBeforeYear (y₀ + 1) = daysBeforeYear y₀ + daysInYear y₀ := rfl
    have hmono : daysBeforeYear (y₀ + 1) ≤ daysBeforeYear (y₀ + 1 + n) :=
      daysBeforeYear_mono (by omega)
    have happ := List.range'_append (toSecs y₀ 1 1 0) (daysInYear y₀)
      (daysBeforeYear (y₀ + 1 + n) - daysBeforeYear (y₀ + 1)) 86400
    rw [show toSecs y₀ 1 1 0 + 86400 * daysInYear y₀ =
        toSecs (y₀ + 1) 1 1 0 by rw [hstr]] at happ
    simp only [Nat.sub_zero]
    rw [happ]
    rw [show y₀ + (n + 1) = y₀ + 1 + n by omega]
    congr 1
    omega

theorem dailyGroups_flatten (sy ey : Nat) :
    (dailyGroups sy ey).flatten =
      (yearsList sy ey).flatMap fun y => monthsList.flatMap fun m =>
        daysList.map fun d => (y, m, d) := by
  unfold dailyGroups
  exact flatten_flatMap_map (yearsList sy ey) (fun _ => monthsList)
    (fun y m => daysList.map fun d => (y, m, d))

theorem daily_cands_stamps (sy ey : Nat) (hsy : 1 ≤ sy) :
    ((dailyGroups sy ey).flatten.filter dayValid).map dailyStart =
      List.range' (toSecs sy 1 1 0)
        (daysBeforeYear (ey + 1) - daysBeforeYear sy) 86400 := by
  rw [dailyGroups_flatten]
  unfold yearsList
  have h := year_block (ey + 1 - sy) sy hsy
  by_cases hle : sy ≤ ey + 1
  · rw [show sy + (ey + 1 - sy) = ey + 1 by omega] at h
    exact h
  · have h0 : ey + 1 - sy = 0 := by omega
    rw [h0] at h ⊢
    rw [h]
    have : daysBeforeYear (ey + 1) - daysBeforeYear sy = 0 := by
      have := daysBeforeYear_mono (show ey + 1 ≤ sy by omega)
      omega
    rw [show sy + 0 = sy from rfl]
    rw [this]
    simp

theorem hourly_cands_struct (sy ey : Nat) :
    hourlyCands sy ey =
      (dailyGroups sy ey).flatten.flatMap fun c =>
        hoursList.map fun h => (c.1, c.2.1, c.2.2, h) := by
  rw [dailyGroups_flatten]
  unfold hourlyCands
  simp only [List.flatMap_assoc, List.flatMap_map]

theorem hour_block_filter (c : Nat × Nat × Nat) :
    (hoursList.map fun h => (c.1, c.2.1, c.2.2, h)).filter hourValid =
      if dayValid c then hoursList.map fun h => (c.1, c.2.1, c.2.2, h)
      else [] := by
  by_cases hv : dayValid c = true
  · rw [if_pos hv]
    apply List.filter_eq_self.mpr
    intro a ha
    rw [List.mem_map] at ha
    obtain ⟨h, hh, rfl⟩ := ha
    have hh24 : h < 24 := by simpa [hoursList, List.mem_range] using hh
    simp only [dayValid, isValidDateHour, decide_eq_true_eq] at hv
    simp only [hourValid, isValidDateHour, decide_eq_true_eq]
    omega
  · rw [if_neg hv]
    apply List.filter_eq_nil_iff.mpr
    intro a ha
    rw [List.mem_map] at ha
    obtain ⟨h, hh, rfl⟩ := ha
    simp only [hourValid, isValidDateHour, decide_eq_true_eq]
    intro hva
    apply hv
    simp only [dayValid, isValidDateHour, decide_eq_true_eq]
    omega

theorem hourly_stamps (sy ey : Nat) (hsy : 1 ≤ sy) :
    ((hourlyCands sy ey).filter hourValid).map
      (fun c => toSecs c.1 c.2.1 c.2.2.1 c.2.2.2) =
      List.range' (toSecs sy 1 1 0)
        ((daysBeforeYear (ey + 1) - daysBeforeYear sy) * 24) 3600 := by
  rw [hourly_cands_struct, List.filter_flatMap]
  simp only [hour_block_filter]
  rw [flatMap_ite_filter]
  rw [List.map_flatMap]
  have h2 : ∀ c : Nat × Nat × Nat,
      ((hoursList.map fun h => (c.1, c.2.1, c.2.2, h)).map
        fun c' => toSecs c'.1 c'.2.1 c'.2.2.1 c'.2.2.2) =
        List.range' (dailyStart c) 24 3600 := by
    intro c
    rw [List.map_map]
    have hcomp : ((fun c' : Nat × Nat × Nat × Nat =>
        toSecs c'.1 c'.2.1 c'.2.2.1 c'.2.2.2) ∘
        fun h => (c.1, c.2.1, c.2.2, h)) =
        fun h => toSecs c.1 c.2.1 c.2.2 h := rfl
    rw [hcomp]
    exact map_toSecs_hours c.1 c.2.1 c.2.2
  simp only [h2]
  rw [← List.flatMap_map dailyStart (fun t => List.range' t 24 3600)]
  rw [daily_cands_stamps sy ey hsy]
  rw [show (86400 : Nat) = 24 * 3600 by norm_num]
  exact flatMap_range'_blocks 24 3600
    (daysBeforeYear (ey + 1) - daysBeforeYear sy) (toSecs sy 1 1 0)

/-! ## Refinement of the grouped loop with `stop` flag

The key hypothesis `LoopK` says (pairwise along the enumeration): once a
calendar-valid candidate fails the recency test all later ones do, and a
calendar-valid candidate whose end lies in the future kills the recency
test of all later ones.  Under it the loop's output is a `takeWhile`
over the calendar-valid candidates. -/

theorem takeWhile_all {p : α → Bool} :
    ∀ l : List α, (∀ a ∈ l, p a = true) → l.takeWhile p = l
  | [], _ => rfl
  | x :: l, h => by
    rw [List.takeWhile_cons_of_pos (h x (by simp)),
      takeWhile_all l (fun a ha => h a (by simp [ha]))]

theorem groupLoop_nil (now clipEnd : Nat) (inv : α → Bool) (sf ef : α → Nat)
    (stop : Bool) : groupLoop now clipEnd inv sf ef [] stop = ([], stop) := rfl

theorem groupLoop_cons_inv (now clipEnd : Nat) (inv : α → Bool)
    (sf ef : α → Nat) (c : α) (cs : List α) (stop : Bool)
    (h : inv c = true) :
    groupLoop now clipEnd inv sf ef (c :: cs) stop =
      groupLoop now clipEnd inv sf ef cs stop := by
  simp [groupLoop, h]

theorem groupLoop_cons_clipped (now clipEnd : Nat) (inv : α → Bool)
    (sf ef : α → Nat) (c : α) (cs : List α) (h : inv c = false)
    (hcl : now < ef c) :
    groupLoop now clipEnd inv sf ef (c :: cs) false =
      ([(sf c, clipEnd)], true) := by
  simp [groupLoop, h, hcl]

theorem groupLoop_cons_unclipped (now clipEnd : Nat) (inv : α → Bool)
    (sf ef : α → Nat) (c : α) (cs : List α) (h : inv c = false)
    (hcl : ¬ now < ef c) :
    groupLoop now clipEnd inv sf ef (c :: cs) false =
      ((sf c, ef c) :: (groupLoop now clipEnd inv sf ef cs false).1,
        (groupLoop now clipEnd inv sf ef cs false).2) := by
  simp [groupLoop, h, hcl]

theorem outerLoop_nil (now clipEnd : Nat) (inv : α → Bool) (sf ef : α → Nat)
    (stop : Bool) : outerLoop now clipEnd inv sf ef [] stop = [] := rfl

theorem outerLoop_cons (now clipEnd : Nat) (inv : α → Bool) (sf ef : α → Nat)
    (g : List α) (gs : List (List α)) (stop : Bool) :
    outerLoop now clipEnd inv sf ef (g :: gs) stop =
      (groupLoop now clipEnd inv sf ef g stop).1 ++
        outerLoop now clipEnd inv sf ef gs
          (groupLoop now clipEnd inv sf ef g stop).2 := by
  simp [outerLoop]

theorem groupLoop_all_inv (now clipEnd : Nat) (inv : α → Bool)
    (sf ef : α → Nat) :
    ∀ (g : List α) (stop : Bool), (∀ c ∈ g, inv c = true) →
      groupLoop now clipEnd inv sf ef g stop = ([], stop)
  | [], stop, _ => rfl
  | c :: cs, stop, h => by
    rw [groupLoop_cons_inv now clipEnd inv sf ef c cs stop (h c (by simp))]
    exact groupLoop_all_inv now clipEnd inv sf ef cs stop
      (fun a ha => h a (by simp [ha]))

theorem outerLoop_all_inv (now clipEnd : Nat) (inv : α → Bool)
    (sf ef : α → Nat) :
    ∀ (gs : List (List α)) (stop : Bool),
      (∀ c ∈ gs.flatten, inv c = true) →
      outerLoop now clipEnd inv sf ef gs stop = []
  | [], _, _ => rfl
  | g :: gs, stop, h => by
    rw [outerLoop_cons,
      groupLoop_all_inv now clipEnd inv sf ef g stop
        (fun a ha => h a (by simp [List.flatten_cons, ha]))]
    exact outerLoop_all_inv now clipEnd inv sf ef gs stop
      (fun a ha => h a (by simp [List.flatten_cons, ha]))

theorem groupLoop_ref (now clipEnd : Nat) (inv cal rec : α → Bool)
    (sf ef : α → Nat) (hinv : ∀ c, inv c = !(cal c && rec c)) :
    ∀ g : List α, g.Pairwise (LoopK now cal rec ef) →
      (groupLoop now clipEnd inv sf ef g false).1 =
        ((g.filter cal).takeWhile rec).map
          (fun c => (sf c, if now < ef c then clipEnd else ef c)) ∧
      ((groupLoop now clipEnd inv sf ef g false).2 = true →
        ∃ c ∈ g, cal c = true ∧ rec c = true ∧ now < ef c) ∧
      ((groupLoop now clipEnd inv sf ef g false).2 = false →
        (∀ c ∈ g, cal c = true → rec c = true ∧ ef c ≤ now) ∨
        ∃ c ∈ g, cal c = true ∧ rec c = false)
  | [], _ => by
    refine ⟨by simp [groupLoop_nil], by simp [groupLoop_nil], ?_⟩
    intro
    left
    simp
  | c :: cs, h => by
    obtain ⟨hK, hcs⟩ := List.pairwise_cons.mp h
    by_cases hcal : cal c = true
    · by_cases hrec : rec c = true
      · by_cases hcl : now < ef c
        · -- clipped: emit the clipped window and stop
          have hi : inv c = false := by rw [hinv c, hcal, hrec]; rfl
          rw [groupLoop_cons_clipped now clipEnd inv sf ef c cs hi hcl]
          refine ⟨?_, ?_, ?_⟩
          · rw [List.filter_cons_of_pos hcal,
              List.takeWhile_cons_of_pos hrec,
              takeWhile_nil_of_all (cs.filter cal) ?_]
            · simp [hcl]
            · intro a ha
              rw [List.mem_filter] at ha
              exact ((hK a ha.1) hcal ha.2).2 hrec hcl
          · intro
            exact ⟨c, by simp, hcal, hrec, hcl⟩
          · intro hfalse
            cases hfalse
        · -- unclipped: emit and continue
          have hi : inv c = false := by rw [hinv c, hcal, hrec]; rfl
          rw [groupLoop_cons_unclipped now clipEnd inv sf ef c cs hi hcl]
          obtain ⟨ih1, ih2, ih3⟩ := groupLoop_ref now clipEnd inv cal
            rec sf ef hinv cs hcs
          refine ⟨?_, ?_, ?_⟩
          · rw [List.filter_cons_of_pos hcal,
              List.takeWhile_cons_of_pos hrec, List.map_cons, ih1,
              if_neg hcl]
          · intro hst
            obtain ⟨a, ha, h1, h2, h3⟩ := ih2 hst
            exact ⟨a, by simp [ha], h1, h2, h3⟩
          · intro hst
            rcases ih3 hst with hall | ⟨a, ha, h1, h2⟩
            · left
              intro a ha hc
              rcases List.mem_cons.mp ha with rfl | ha'
              · exact ⟨hrec, by omega⟩
              · exact hall a ha' hc
            · right
              exact ⟨a, by simp [ha], h1, h2⟩
      · -- calendar-valid but recency-rejected: skipped, and every later
        -- candidate is rejected as well
        have hrec' : rec c = false := by
          cases hr : rec c
          · rfl
          · exact absurd hr hrec
        have hi : inv c = true := by rw [hinv c, hcal, hrec']; rfl
        rw [groupLoop_cons_inv now clipEnd inv sf ef c cs false hi]
        have hallinv : ∀ a ∈ cs, inv a = true := by
          intro a ha
          rw [hinv a]
          by_cases hca : cal a = true
          · rw [hca, ((hK a ha) hcal hca).1 hrec']
            rfl
          · have : cal a = false := by
              cases hc' : cal a
              · rfl
              · exact absurd hc' hca
            rw [this]
            rfl
        rw [groupLoop_all_inv now clipEnd inv sf ef cs false hallinv]
        refine ⟨?_, ?_, ?_⟩
        · rw [List.filter_cons_of_pos hcal,
            List.takeWhile_cons_of_neg (by simp [hrec'])]
          rfl
        · intro hfalse
          cases hfalse
        · intro
          right
          exact ⟨c, by simp, hcal, hrec'⟩
    · -- calendar-invalid: skipped silently
      have hcal' : cal c = false := by
        cases hc : cal c
        · rfl
        · exact absurd hc hcal
      have hi : inv c = true := by rw [hinv c, hcal']; rfl
      rw [groupLoop_cons_inv now clipEnd inv sf ef c cs false hi]
      obtain ⟨ih1, ih2, ih3⟩ := groupLoop_ref now clipEnd inv cal rec
        sf ef hinv cs hcs
      refine ⟨?_, ?_, ?_⟩
      · rw [List.filter_cons_of_neg (by simp [hcal']), ih1]
      · intro hst
        obtain ⟨a, ha, h1, h2, h3⟩ := ih2 hst
        exact ⟨a, by simp [ha], h1, h2, h3⟩
      · intro hst
        rcases ih3 hst with hall | ⟨a, ha, h1, h2⟩
        · left
          intro a ha hc
          rcases List.mem_cons.mp ha with rfl | ha'
          · rw [hcal'] at hc
            cases hc
          · exact hall a ha' hc
        · right
          exact ⟨a, by simp [ha], h1, h2⟩

theorem outerLoop_ref (now clipEnd : Nat) (inv cal rec : α → Bool)
    (sf ef : α → Nat) (hinv : ∀ c, inv c = !(cal c && rec c)) :
    ∀ gs : List (List α), (gs.flatten).Pairwise (LoopK now cal rec ef) →
      outerLoop now clipEnd inv sf ef gs false =
        (((gs.flatten).filter cal).takeWhile rec).map
          (fun c => (sf c, if now < ef c then clipEnd else ef c))
  | [], _ => rfl
  | g :: gs, h => by
    rw [List.flatten_cons] at h ⊢
    obtain ⟨hg, hrest, hcross⟩ := List.pairwise_append.mp h
    obtain ⟨h1, h2, h3⟩ := groupLoop_ref now clipEnd inv cal rec sf ef hinv g hg
    rw [outerLoop_cons, List.filter_append]
    cases hst : (groupLoop now clipEnd inv sf ef g false).2 with
    | false =>
      rcases h3 hst with hall | ⟨cbad, hmem, hbcal, hbrec⟩
      · -- the whole group was emitted unclipped; recurse
        have hfg : ∀ a ∈ g.filter cal, rec a = true := by
          intro a ha
          rw [List.mem_filter] at ha
          exact (hall a ha.1 ha.2).1
        rw [takeWhile_append_all (g.filter cal) (gs.flatten.filter cal) hfg,
          List.map_append]
        rw [h1, takeWhile_all (g.filter cal) hfg]
        rw [outerLoop_ref now clipEnd inv cal rec sf ef hinv gs hrest]
      · -- a recency cut happened inside the group: nothing follows
        have hcut := takeWhile_append_cut (g.filter cal)
          (gs.flatten.filter cal) cbad (List.mem_filter.mpr ⟨hmem, hbcal⟩)
          hbrec
        rw [hcut, h1]
        have hallinv : ∀ a ∈ gs.flatten, inv a = true := by
          intro a ha
          rw [hinv a]
          by_cases hca : cal a = true
          · rw [hca, ((hcross cbad hmem a ha) hbcal hca).1 hbrec]
            rfl
          · have : cal a = false := by
              cases hc' : cal a
              · rfl
              · exact absurd hc' hca
            rw [this]
            rfl
        rw [outerLoop_all_inv now clipEnd inv sf ef gs false hallinv,
          List.append_nil]
    | true =>
      obtain ⟨cclip, hmem, hccal, hcrec, hccl⟩ := h2 hst
      have hallinv : ∀ a ∈ gs.flatten, inv a = true := by
        intro a ha
        rw [hinv a]
        by_cases hca : cal a = true
        · rw [hca, ((hcross cclip hmem a ha) hccal hca).2 hcrec hccl]
          rfl
        · have : cal a = false := by
            cases hc' : cal a
            · rfl
            · exact absurd hc' hca
          rw [this]
          rfl
      rw [outerLoop_all_inv now clipEnd inv sf ef gs true hallinv,
        List.append_nil, h1]
      by_cases hex : ∀ a ∈ g.filter cal, rec a = true
      · rw [takeWhile_append_all (g.filter cal) (gs.flatten.filter cal) hex]
        have hnil : (gs.flatten.filter cal).takeWhile rec = [] := by
          apply takeWhile_nil_of_all
          intro a ha
          rw [List.mem_filter] at ha
          exact ((hcross cclip hmem a ha.1) hccal ha.2).2 hcrec hccl
        rw [hnil, List.append_nil, takeWhile_all (g.filter cal) hex]
      · push_neg at hex
        obtain ⟨a, ha, hna⟩ := hex
        have hna' : rec a = false := by
          cases hr : rec a
          · rfl
          · exact absurd hr hna
        rw [takeWhile_append_cut (g.filter cal) (gs.flatten.filter cal)
          a ha hna']

/-! ## Bridge lemmas for the per-granularity refinements -/

theorem filterMap_if (q : α → Bool) (f : α → β) :
    ∀ l : List α,
      (l.filterMap fun c => if q c then none else some (f c)) =
        (l.filter fun c => !q c).map f
  | [] => rfl
  | x :: l => by
    cases hx : q x
    · simp [List.filterMap_cons, List.filter_cons, hx, filterMap_if q f l]
    · simp [List.filterMap_cons, List.filter_cons, hx, filterMap_if q f l]

theorem pairwise_of_pairwise_filter {p : α → Bool} {R : α → α → Prop} :
    ∀ l : List α, (l.filter p).Pairwise R →
      l.Pairwise (fun a b => p a = true → p b = true → R a b)
  | [], _ => List.Pairwise.nil
  | x :: l, h => by
    by_cases hx : p x = true
    · rw [List.filter_cons_of_pos hx] at h
      obtain ⟨hhead, htail⟩ := List.pairwise_cons.mp h
      refine List.pairwise_cons.mpr ⟨?_, pairwise_of_pairwise_filter l htail⟩
      intro b hb _ hpb
      exact hhead b (List.mem_filter.mpr ⟨hb, hpb⟩)
    · rw [List.filter_cons_of_neg hx] at h
      refine List.pairwise_cons.mpr ⟨?_, pairwise_of_pairwise_filter l h⟩
      intro b _ hpx _
      exact absurd hpx hx

theorem loopK_of_mono (now : Nat) (cal recb : α → Bool) (sf ef : α → Nat)
    (hrec : ∀ c, recb c = decide (sf c + 5400 ≤ now)) {c c' : α}
    (hm : sf c ≤ sf c') (hg : ef c ≤ sf c') :
    LoopK now cal recb ef c c' := by
  intro hc hc'
  constructor
  · intro hf
    rw [hrec] at hf ⊢
    rw [decide_eq_false_iff_not] at hf ⊢
    omega
  · intro ht hcl
    rw [hrec] at ht ⊢
    rw [decide_eq_true_eq] at ht
    rw [decide_eq_false_iff_not]
    omega

theorem chain'_takeWhile {R : α → α → Prop} {p : α → Bool} (l : List α)
    (h : l.Chain' R) : (l.takeWhile p).Chain' R := by
  have hpre := @List.takeWhile_prefix α l p
  exact List.Chain'.prefix h hpre

theorem mem_takeWhile_pred {p : α → Bool} :
    ∀ l : List α, ∀ a ∈ l.takeWhile p, p a = true
  | [], a, ha => by simp at ha
  | x :: l, a, ha => by
    by_cases hx : p x = true
    · rw [List.takeWhile_cons_of_pos hx] at ha
      rcases List.mem_cons.mp ha with rfl | ha'
      · exact hx
      · exact mem_takeWhile_pred l a ha'
    · rw [List.takeWhile_cons_of_neg hx] at ha
      simp at ha

theorem mem_of_mem_takeWhile {p : α → Bool} (l : List α) (a : α)
    (ha : a ∈ l.takeWhile p) : a ∈ l :=
  (List.takeWhile_sublist p).subset ha

theorem windows_pairwise (l : List (Nat × Nat))
    (hc : l.Chain' (fun w w' => w.1 < w'.1 ∧ w.2 ≤ w'.1))
    (hb : ∀ w ∈ l, w.1 < w.2) :
    l.Pairwise (fun w w' => w.1 < w'.1 ∧ w.2 ≤ w'.1) := by
  refine chain'_trans_pairwise ?_ l hc hb
  intro a b c hab hb2 hbc
  exact ⟨by omega, by omega⟩

/-! ## The daily branch refined -/

theorem getPeriodsDaily_ref (now sy ey : Nat) (hsy : 1 ≤ sy) :
    getPeriodsDaily now sy ey =
      (((dailyGroups sy ey).flatten.filter dayValid).takeWhile
          (dayRec now)).map
        (fun c => (dailyStart c,
          if now < dailyStart c + 86400 then now - 3600
          else dailyStart c + 86400)) := by
  unfold getPeriodsDaily
  apply outerLoop_ref now (now - 3600) _ dayValid (dayRec now) dailyStart
    (fun c => dailyStart c + 86400) ?_ (dailyGroups sy ey) ?_
  · intro c
    exact check_day_eq now c
  · -- pairwise gap property from the arithmetic-progression stamps
    have hstamps := daily_cands_stamps sy ey hsy
    have hrange : (List.range' (toSecs sy 1 1 0)
        (daysBeforeYear (ey + 1) - daysBeforeYear sy) 86400).Pairwise
        (fun a b => a + 86400 ≤ b) := by
      refine chain'_trans_pairwise (P := fun _ => True) ?_ _ ?_ ?_
      · intro a b c h1 _ h2
        omega
      · have hch := chain'_range'_step 86400
          (daysBeforeYear (ey + 1) - daysBeforeYear sy) (toSecs sy 1 1 0)
        exact List.Chain'.imp (fun a b h => by omega) hch
      · intro a _
        trivial
    rw [← hstamps] at hrange
    have hfp := List.pairwise_map.mp hrange
    have hfull := pairwise_of_pairwise_filter _ hfp
    refine hfull.imp ?_
    intro c c' hcc
    intro hc hc'
    have hgap := hcc hc hc'
    exact loopK_of_mono now dayValid (dayRec now) dailyStart
      (fun c => dailyStart c + 86400) (fun c => rfl)
      (by omega) (by show dailyStart c + 86400 ≤ dailyStart c'; omega) hc hc'

theorem daily_summary (now sy ey : Nat) (hsy : 1 ≤ sy) :
    (getPeriodsDaily now sy ey).Chain'
      (fun w w' => w.2 = w'.1 ∧ w.1 < w'.1) ∧
    ∀ w ∈ getPeriodsDaily now sy ey,
      w.1 + 5400 ≤ now ∧ w.1 < w.2 ∧ w.2 ≤ now ∧
      ∃ y m d, isValidDateHour y m d 0 ∧ w.1 = toSecs y m d 0 ∧
        (w.2 = toSecs y m d 0 + 86400 ∨ w.2 = now - 3600) := by
  rw [getPeriodsDaily_ref now sy ey hsy]
  have hstamps := daily_cands_stamps sy ey hsy
  have hch0 := chain'_range'_step 86400
    (daysBeforeYear (ey + 1) - daysBeforeYear sy) (toSecs sy 1 1 0)
  rw [← hstamps] at hch0
  have hch1 := (List.chain'_map dailyStart).mp hch0
  have hchT := chain'_takeWhile (p := dayRec now) _ hch1
  have hallT : ∀ a ∈ ((dailyGroups sy ey).flatten.filter dayValid).takeWhile
      (dayRec now), dayRec now a = true :=
    fun a ha => mem_takeWhile_pred _ a ha
  have hchS := chain'_and_of_forall _ hchT hallT
  constructor
  · refine (List.chain'_map _).mpr (List.Chain'.imp ?_ hchS)
    intro c c' h
    obtain ⟨hstep, hrc, hrc'⟩ := h
    simp only [dayRec, decide_eq_true_eq] at hrc hrc'
    have hrc2 : dailyStart c + 5400 ≤ now := hrc
    have hrc2' : dailyStart c' + 5400 ≤ now := hrc'
    dsimp only
    have hno : ¬ now < dailyStart c + 86400 := by omega
    rw [if_neg hno]
    omega
  · intro w hw
    rw [List.mem_map] at hw
    obtain ⟨c, hcT, rfl⟩ := hw
    have hrec := mem_takeWhile_pred _ c hcT
    simp only [dayRec, decide_eq_true_eq] at hrec
    have hcFC := mem_of_mem_takeWhile _ c hcT
    rw [List.mem_filter] at hcFC
    have hval : isValidDateHour c.1 c.2.1 c.2.2 0 := by
      have h2 := hcFC.2
      simpa [dayValid] using h2
    have hrec2 : dailyStart c + 5400 ≤ now := hrec
    rcases c with ⟨y, m, d⟩
    dsimp only
    by_cases hcl : now < dailyStart (y, m, d) + 86400
    · rw [if_pos hcl]
      refine ⟨hrec2, by omega, by omega, y, m, d, hval, rfl, Or.inr rfl⟩
    · rw [if_neg hcl]
      refine ⟨hrec2, by omega, by omega, y, m, d, hval, rfl, Or.inl rfl⟩

/-! ## The hourly branch refined -/

theorem getPeriodsHourly_ref (now sy ey : Nat) (hsy : 1 ≤ sy) :
    getPeriodsHourly now sy ey =
      (((hourlyCands sy ey).filter hourValid).takeWhile (hourRec now)).map
        (fun c => (toSecs c.1 c.2.1 c.2.2.1 c.2.2.2,
          toSecs c.1 c.2.1 c.2.2.1 c.2.2.2 + 3600)) := by
  have h1 : getPeriodsHourly now sy ey =
      (hourlyCands sy ey).filterMap fun c =>
        if check_invalid_date now c.1 c.2.1 c.2.2.1 c.2.2.2 then none
        else some (toSecs c.1 c.2.1 c.2.2.1 c.2.2.2,
          toSecs c.1 c.2.1 c.2.2.1 c.2.2.2 + 3600) := by
    unfold getPeriodsHourly
    refine congrArg (fun f => (hourlyCands sy ey).filterMap f) ?_
    funext c
    rcases c with ⟨y, m, d, h⟩
    rfl
  rw [h1, filterMap_if
    (fun c : Nat × Nat × Nat × Nat =>
      check_invalid_date now c.1 c.2.1 c.2.2.1 c.2.2.2)
    (fun c => (toSecs c.1 c.2.1 c.2.2.1 c.2.2.2,
      toSecs c.1 c.2.1 c.2.2.1 c.2.2.2 + 3600)) (hourlyCands sy ey)]
  have h2 : (fun c : Nat × Nat × Nat × Nat =>
      !check_invalid_date now c.1 c.2.1 c.2.2.1 c.2.2.2) =
      fun c => hourValid c && hourRec now c := by
    funext c
    rw [check_hour_eq now c, Bool.not_not]
  rw [h2]
  have h3 : (hourlyCands sy ey).filter
      (fun c => hourValid c && hourRec now c) =
      ((hourlyCands sy ey).filter hourValid).filter (hourRec now) := by
    rw [List.filter_filter]
    congr 1
    funext c
    rw [Bool.and_comm]
  rw [h3]
  have h4 : ((hourlyCands sy ey).filter hourValid).filter (hourRec now) =
      ((hourlyCands sy ey).filter hourValid).takeWhile (hourRec now) := by
    apply filter_eq_takeWhile_of_mono
    have hst := hourly_stamps sy ey hsy
    have hp := List.pairwise_le_range' (toSecs sy 1 1 0)
      ((daysBeforeYear (ey + 1) - daysBeforeYear sy) * 24) 3600
    rw [← hst] at hp
    have hp2 := List.pairwise_map.mp hp
    refine hp2.imp ?_
    intro c c' hle hf
    simp only [hourRec, decide_eq_false_iff_not] at hf ⊢
    omega
  rw [h4]

theorem hourly_summary (now sy ey : Nat) (hsy : 1 ≤ sy) :
    (getPeriodsHourly now sy ey).Chain'
      (fun w w' => w.2 = w'.1 ∧ w.1 < w'.1) ∧
    ∀ w ∈ getPeriodsHourly now sy ey,
      w.1 + 5400 ≤ now ∧ w.1 < w.2 ∧ w.2 ≤ now ∧
      ∃ y m d h, isValidDateHour y m d h ∧ w.1 = toSecs y m d h ∧
        w.2 = toSecs y m d h + 3600 := by
  rw [getPeriodsHourly_ref now sy ey hsy]
  have hst := hourly_stamps sy ey hsy
  have hch0 := chain'_range'_step 3600
    ((daysBeforeYear (ey + 1) - daysBeforeYear sy) * 24) (toSecs sy 1 1 0)
  rw [← hst] at hch0
  have hch1 := (List.chain'_map
    (fun c : Nat × Nat × Nat × Nat =>
      toSecs c.1 c.2.1 c.2.2.1 c.2.2.2)).mp hch0
  have hchT := chain'_takeWhile (p := hourRec now) _ hch1
  constructor
  · refine (List.chain'_map _).mpr (List.Chain'.imp ?_ hchT)
    intro c c' hstep
    dsimp only
    exact ⟨hstep.symm, by omega⟩
  · intro w hw
    rw [List.mem_map] at hw
    obtain ⟨c, hcT, rfl⟩ := hw
    have hrec := mem_takeWhile_pred _ c hcT
    simp only [hourRec, decide_eq_true_eq] at hrec
    have hcFC := mem_of_mem_takeWhile _ c hcT
    rw [List.mem_filter] at hcFC
    have hval : isValidDateHour c.1 c.2.1 c.2.2.1 c.2.2.2 := by
      have h2 := hcFC.2
      simpa [hourValid] using h2
    rcases c with ⟨y, m, d, h⟩
    dsimp only at hrec hval ⊢
    exact ⟨hrec, by omega, by omega, y, m, d, h, hval, rfl, rfl⟩

/-! ## The monthly branch refined -/

theorem toSecs_13 (y : Nat) : toSecs y 13 1 0 = toSecs (y + 1) 1 1 0 := by
  unfold toSecs
  rw [daysBeforeMonth_13 y]
  have h1 : daysBeforeYear (y + 1) = daysBeforeYear y + daysInYear y := rfl
  have h2 : daysBeforeMonth (y + 1) 1 = 0 := rfl
  omega

theorem nextMonth_lt (y m : Nat) (h2 : m ≤ 11) :
    nextMonth y m = (y, m + 1) := by
  unfold nextMonth
  rw [if_neg (by omega)]

theorem nextMonth_12 (y : Nat) : nextMonth y 12 = (y + 1, 1) := rfl

theorem monthlyEnd_eq (y m : Nat) (h1 : 1 ≤ m) (h2 : m ≤ 12) :
    monthlyEnd (y, m) = toSecs y (m + 1) 1 0 - 1 := by
  unfold monthlyEnd
  by_cases h12 : m = 12
  · subst h12
    rw [show nextMonth (y, (12 : Nat)).1 (y, (12 : Nat)).2 = (y + 1, 1) from rfl]
    rw [← toSecs_13 y]
  · rw [show nextMonth (y, m).1 (y, m).2 = nextMonth y m from rfl,
      nextMonth_lt y m (by omega)]

theorem month_step (y m : Nat) (hy : 1 ≤ y) (h1 : 1 ≤ m) (h2 : m ≤ 11) :
    MonthCM (y, m) (y, m + 1) := by
  constructor
  · rw [monthlyEnd_eq y m h1 (by omega)]
    have hpos := toSecs_pos y (m + 1) 1 0 hy
    show toSecs y (m + 1) 1 0 - 1 + 1 = toSecs y (m + 1) 1 0
    omega
  · show toSecs y m 1 0 < toSecs y (m + 1) 1 0
    rw [toSecs_month_stride y m h1]
    have := daysInMonth_pos y m
    omega

theorem month_step_cross (y : Nat) (hy : 1 ≤ y) :
    MonthCM (y, 12) (y + 1, 1) := by
  constructor
  · rw [monthlyEnd_eq y 12 (by omega) (by omega)]
    have hpos := toSecs_pos y 13 1 0 hy
    show toSecs y 13 1 0 - 1 + 1 = monthlyStart (y + 1, 1)
    rw [show monthlyStart (y + 1, 1) = toSecs (y + 1) 1 1 0 from rfl,
      ← toSecs_13 y]
    omega
  · show toSecs y 12 1 0 < toSecs (y + 1) 1 1 0
    rw [← toSecs_13 y, toSecs_month_stride y 12 (by omega)]
    have := daysInMonth_pos y 12
    omega

theorem month_chain_range (y : Nat) (hy : 1 ≤ y) :
    ∀ (k m₀ : Nat), 1 ≤ m₀ → m₀ + k ≤ 13 →
      ((List.range' m₀ k).map fun m => (y, m)).Chain' MonthCM
  | 0, m₀, _, _ => by simp
  | k + 1, m₀, h1, h2 => by
    rw [List.range'_succ, List.map_cons]
    cases k with
    | zero => simp
    | succ k' =>
      rw [List.range'_succ, List.map_cons]
      refine List.chain'_cons.mpr ⟨month_step y m₀ hy h1 (by omega), ?_⟩
      have hrec := month_chain_range y hy (k' + 1) (m₀ + 1)
        (by omega) (by omega)
      rw [List.range'_succ, List.map_cons] at hrec
      exact hrec

theorem monthly_flat_eq (sy ey : Nat) :
    (monthlyGroups sy ey).flatten =
      (yearsList sy ey).flatMap fun y => monthsList.map fun m => (y, m) := rfl

theorem monthBlock_getLast (y : Nat) :
    (monthsList.map fun m => (y, m)).getLast? = some (y, 12) := rfl

theorem month_chain_years :
    ∀ (n y₀ : Nat), 1 ≤ y₀ →
      ((List.range' y₀ n).flatMap fun y =>
        monthsList.map fun m => (y, m)).Chain' MonthCM
  | 0, y₀, _ => by simp
  | n + 1, y₀, hy => by
    rw [List.range'_succ, List.flatMap_cons]
    refine List.Chain'.append ?_ ?_ ?_
    · have hb := month_chain_range y₀ hy 12 1 (by omega) (by omega)
      exact hb
    · exact month_chain_years n (y₀ + 1) (by omega)
    · intro x hx z hz
      rw [monthBlock_getLast y₀] at hx
      rw [Option.mem_def, Option.some.injEq] at hx
      subst hx
      cases n with
      | zero => simp at hz
      | succ n' =>
        rw [List.range'_succ, List.flatMap_cons] at hz
        rw [show (monthsList.map fun m => (y₀ + 1, m)) =
            (y₀ + 1, 1) :: ((List.range' 2 11).map fun m => (y₀ + 1, m))
          from rfl] at hz
        rw [List.cons_append, List.head?_cons, Option.mem_def,
          Option.some.injEq] at hz
        subst hz
        exact month_step_cross y₀ hy

theorem monthsFlat_mem (sy ey : Nat) (c : Nat × Nat)
    (hc : c ∈ (monthlyGroups sy ey).flatten) :
    sy ≤ c.1 ∧ c.1 ≤ ey ∧ 1 ≤ c.2 ∧ c.2 ≤ 12 := by
  rw [monthly_flat_eq, List.mem_flatMap] at hc
  obtain ⟨y, hy, hc⟩ := hc
  rw [List.mem_map] at hc
  obtain ⟨m, hm, rfl⟩ := hc
  unfold yearsList at hy
  rw [List.mem_range'_1] at hy
  unfold monthsList at hm
  rw [List.mem_range'_1] at hm
  refine ⟨by omega, by omega, by omega, by omega⟩

theorem monthly_start_lt_end (y m : Nat) (_hy : 1 ≤ y) (h1 : 1 ≤ m)
    (h2 : m ≤ 12) : monthlyStart (y, m) < monthlyEnd (y, m) := by
  rw [monthlyEnd_eq y m h1 h2]
  show toSecs y m 1 0 < toSecs y (m + 1) 1 0 - 1
  rw [toSecs_month_stride y m h1]
  have := daysInMonth_pos y m
  omega

theorem getPeriodsMonthly_ref (now sy ey : Nat) (hsy : 1 ≤ sy) :
    getPeriodsMonthly now sy ey =
      (((monthlyGroups sy ey).flatten.filter monthValid).takeWhile
          (monthRec now)).map
        (fun c => (monthlyStart c,
          if now < monthlyEnd c then now else monthlyEnd c)) := by
  unfold getPeriodsMonthly
  apply outerLoop_ref now now _ monthValid (monthRec now) monthlyStart
    monthlyEnd ?_ (monthlyGroups sy ey) ?_
  · intro c
    exact check_month_eq now c
  · have hchain : ((monthlyGroups sy ey).flatten).Chain' MonthCM := by
      rw [monthly_flat_eq]
      unfold yearsList
      exact month_chain_years (ey + 1 - sy) sy hsy
    have hchain' := List.Chain'.imp
      (S := fun c c' => monthlyEnd c + 1 ≤ monthlyStart c' ∧
        monthlyStart c < monthlyStart c')
      (fun c c' h => ⟨Nat.le_of_eq h.1, h.2⟩) hchain
    have hp := chain'_trans_pairwise
      (P := fun c => monthlyStart c ≤ monthlyEnd c) ?_ _ hchain' ?_
    · refine hp.imp ?_
      intro c c' h
      obtain ⟨hg1, hg2⟩ := h
      exact loopK_of_mono now monthValid (monthRec now) monthlyStart
        monthlyEnd (fun c => rfl) (by omega) (by omega)
    · intro a b c hab hb hbc
      refine ⟨by omega, by omega⟩
    · intro c hc
      obtain ⟨h1, h2, h3, h4⟩ := monthsFlat_mem sy ey c hc
      rcases c with ⟨y, m⟩
      exact Nat.le_of_lt (monthly_start_lt_end y m (by omega) h3 h4)

theorem monthly_summary (now sy ey : Nat) (hsy : 1 ≤ sy) :
    (getPeriodsMonthly now sy ey).Chain'
      (fun w w' => w.2 + 1 = w'.1 ∧ w.1 < w'.1) ∧
    ∀ w ∈ getPeriodsMonthly now sy ey,
      w.1 + 5400 ≤ now ∧ w.1 < w.2 ∧ w.2 ≤ now ∧
      ∃ y m, isValidDateHour y m 1 0 ∧ w.1 = toSecs y m 1 0 ∧
        (w.2 + 1 = toSecs (nextMonth y m).1 (nextMonth y m).2 1 0 ∨
          w.2 = now) := by
  rw [getPeriodsMonthly_ref now sy ey hsy]
  have hchain : ((monthlyGroups sy ey).flatten).Chain' MonthCM := by
    rw [monthly_flat_eq]
    unfold yearsList
    exact month_chain_years (ey + 1 - sy) sy hsy
  have hfilter : (monthlyGroups sy ey).flatten.filter monthValid =
      (monthlyGroups sy ey).flatten := by
    apply List.filter_eq_self.mpr
    intro c hc
    obtain ⟨h1, h2, h3, h4⟩ := monthsFlat_mem sy ey c hc
    simp only [monthValid, isValidDateHour, decide_eq_true_eq]
    have := daysInMonth_pos c.1 c.2
    omega
  rw [hfilter]
  have hchT := chain'_takeWhile (p := monthRec now) _ hchain
  have hallT : ∀ a ∈ ((monthlyGroups sy ey).flatten).takeWhile
      (monthRec now), monthRec now a = true :=
    fun a ha => mem_takeWhile_pred _ a ha
  have hchS := chain'_and_of_forall _ hchT hallT
  constructor
  · refine (List.chain'_map _).mpr (List.Chain'.imp ?_ hchS)
    intro c c' h
    obtain ⟨hcm, hrc, hrc'⟩ := h
    obtain ⟨hcm1, hcm2⟩ := hcm
    simp only [monthRec, decide_eq_true_eq] at hrc hrc'
    dsimp only
    have hno : ¬ now < monthlyEnd c := by omega
    rw [if_neg hno]
    omega
  · intro w hw
    rw [List.mem_map] at hw
    obtain ⟨c, hcT, rfl⟩ := hw
    have hrec := mem_takeWhile_pred _ c hcT
    simp only [monthRec, decide_eq_true_eq] at hrec
    have hcF := mem_of_mem_takeWhile _ c hcT
    obtain ⟨h1, h2, h3, h4⟩ := monthsFlat_mem sy ey c hcF
    rcases c with ⟨y, m⟩
    have hlt := monthly_start_lt_end y m (by omega) h3 h4
    have hval : isValidDateHour y m 1 0 := by
      simp only [isValidDateHour]
      have := daysInMonth_pos y m
      omega
    dsimp only at hrec hlt ⊢
    by_cases hcl : now < monthlyEnd (y, m)
    · rw [if_pos hcl]
      exact ⟨hrec, by omega, Nat.le_refl _, y, m, hval, rfl, Or.inr rfl⟩
    · rw [if_neg hcl]
      refine ⟨hrec, hlt, by omega, y, m, hval, rfl, Or.inl ?_⟩
      have hyn : 1 ≤ (nextMonth y m).1 := by
        unfold nextMonth
        by_cases h12 : m + 1 > 12
        · rw [if_pos h12]
          dsimp only
          omega
        · rw [if_neg h12]
          dsimp only
          omega
      have hpos := toSecs_pos (nextMonth y m).1 (nextMonth y m).2 1 0 hyn
      show monthlyEnd (y, m) + 1 = _
      unfold monthlyEnd
      dsimp only
      omega

theorem yearly_start_lt_end (y : Nat) : yearlyStart y < yearlyEnd y := by
  unfold yearlyStart yearlyEnd
  have h1 := toSecs_year_stride y
  have h2 := daysInYear_ge y
  have h3 : 86400 * 365 ≤ 86400 * daysInYear y := Nat.mul_le_mul_left 86400 h2
  omega

theorem year_step (y : Nat) :
    yearlyEnd y + 1 = yearlyStart (y + 1) ∧
      yearlyStart y < yearlyStart (y + 1) := by
  unfold yearlyStart yearlyEnd
  have h1 := toSecs_year_stride y
  have h2 := daysInYear_ge y
  have h3 : 86400 * 365 ≤ 86400 * daysInYear y := Nat.mul_le_mul_left 86400 h2
  have h4 := toSecs_pos (y + 1) 1 1 0 (by omega)
  omega

theorem years_chain (sy ey : Nat) :
    (yearsList sy ey).Chain'
      (fun y y' => yearlyEnd y + 1 = yearlyStart y' ∧
        yearlyStart y < yearlyStart y') := by
  unfold yearsList
  have hc := chain'_range'_step 1 (ey + 1 - sy) sy
  exact hc.imp (fun a b h => by rw [h]; exact year_step a)

theorem years_pairwise (now sy ey : Nat) :
    (yearsList sy ey).Pairwise
      (LoopK now yearValid (yearRec now) yearlyEnd) := by
  have hchain' := List.Chain'.imp
    (S := fun y y' => yearlyEnd y + 1 ≤ yearlyStart y' ∧
      yearlyStart y < yearlyStart y')
    (fun y y' h => ⟨Nat.le_of_eq h.1, h.2⟩) (years_chain sy ey)
  have hp := chain'_trans_pairwise
    (P := fun y => yearlyStart y ≤ yearlyEnd y) ?_ _ hchain' ?_
  · refine hp.imp ?_
    intro y y' h
    obtain ⟨hg1, hg2⟩ := h
    exact loopK_of_mono now yearValid (yearRec now) yearlyStart
      yearlyEnd (fun y => rfl) (by omega) (by omega)
  · intro a b c hab hb hbc
    exact ⟨by omega, by omega⟩
  · intro y hy
    exact Nat.le_of_lt (yearly_start_lt_end y)

theorem getPeriodsYearly_ref (now sy ey : Nat) :
    getPeriodsYearly now sy ey =
      (((yearsList sy ey).filter yearValid).takeWhile (yearRec now)).map
        (fun y => (yearlyStart y,
          if now < yearlyEnd y then now else yearlyEnd y)) := by
  unfold getPeriodsYearly
  exact (groupLoop_ref now now (fun y => check_invalid_date now y 1 1 0)
    yearValid (yearRec now) yearlyStart yearlyEnd
    (fun y => check_year_eq now y) (yearsList sy ey)
    (years_pairwise now sy ey)).1

theorem yearly_summary (now sy ey : Nat) (hsy : 1 ≤ sy) :
    (getPeriodsYearly now sy ey).Chain'
      (fun w w' => w.2 + 1 = w'.1 ∧ w.1 < w'.1) ∧
    ∀ w ∈ getPeriodsYearly now sy ey,
      w.1 + 5400 ≤ now ∧ w.1 < w.2 ∧ w.2 ≤ now ∧
      ∃ y, isValidDateHour y 1 1 0 ∧ w.1 = toSecs y 1 1 0 ∧
        (w.2 + 1 = toSecs (y + 1) 1 1 0 ∨ w.2 = now) := by
  rw [getPeriodsYearly_ref now sy ey]
  have hfilter : (yearsList sy ey).filter yearValid = yearsList sy ey := by
    apply List.filter_eq_self.mpr
    intro y hy
    unfold yearsList at hy
    rw [List.mem_range'_1] at hy
    simp only [yearValid, isValidDateHour, decide_eq_true_eq]
    have := daysInMonth_pos y 1
    omega
  rw [hfilter]
  have hchT := chain'_takeWhile (p := yearRec now) _ (years_chain sy ey)
  have hallT : ∀ a ∈ (yearsList sy ey).takeWhile (yearRec now),
      yearRec now a = true :=
    fun a ha => mem_takeWhile_pred _ a ha
  have hchS := chain'_and_of_forall _ hchT hallT
  constructor
  · refine (List.chain'_map _).mpr (List.Chain'.imp ?_ hchS)
    intro y y' h
    obtain ⟨hcm, hrc, hrc'⟩ := h
    obtain ⟨hcm1, hcm2⟩ := hcm
    simp only [yearRec, decide_eq_true_eq] at hrc hrc'
    dsimp only
    have hno : ¬ now < yearlyEnd y := by omega
    rw [if_neg hno]
    omega
  · intro w hw
    rw [List.mem_map] at hw
    obtain ⟨y, hyT, rfl⟩ := hw
    have hrec := mem_takeWhile_pred _ y hyT
    simp only [yearRec, decide_eq_true_eq] at hrec
    have hyF := mem_of_mem_takeWhile _ y hyT
    unfold yearsList at hyF
    rw [List.mem_range'_1] at hyF
    have hlt := yearly_start_lt_end y
    have hval : isValidDateHour y 1 1 0 := by
      simp only [isValidDateHour]
      have := daysInMonth_pos y 1
      omega
    dsimp only
    by_cases hcl : now < yearlyEnd y
    · rw [if_pos hcl]
      exact ⟨hrec, by omega, Nat.le_refl _, y, hval, rfl, Or.inr rfl⟩
    · rw [if_neg hcl]
      refine ⟨hrec, hlt, by omega, y, hval, rfl, Or.inl ?_⟩
      have hpos := toSecs_pos (y + 1) 1 1 0 (by omega)
      show yearlyEnd y + 1 = _
      unfold yearlyEnd
      omega

theorem nextDay_secs (c : Nat × Nat × Nat) (hv : dayValid c = true) :
    dayValid (nextDay c) = true ∧
      toSecs (nextDay c).1 (nextDay c).2.1 (nextDay c).2.2 0 =
        toSecs c.1 c.2.1 c.2.2 0 + 86400 := by
  rcases c with ⟨y, m, d⟩
  simp only [dayValid, decide_eq_true_eq, isValidDateHour] at hv ⊢
  obtain ⟨h1, h2, h3, h4, h5, _⟩ := hv
  unfold nextDay
  dsimp only
  by_cases hd : d < daysInMonth y m
  · rw [if_pos hd]
    dsimp only
    exact ⟨⟨h1, h2, h3, by omega, by omega, by omega⟩,
      toSecs_day_succ y m d h4⟩
  · rw [if_neg hd]
    have hde : d = daysInMonth y m := by omega
    by_cases hm : m < 12
    · rw [if_pos hm]
      dsimp only
      have hp := daysInMonth_pos y (m + 1)
      refine ⟨⟨h1, by omega, by omega, by omega, hp, by omega⟩, ?_⟩
      rw [hde]
      exact toSecs_month_first y m h2
    · rw [if_neg hm]
      dsimp only
      have hm12 : m = 12 := by omega
      have hp := daysInMonth_pos (y + 1) 1
      refine ⟨⟨by omega, by omega, by omega, by omega, hp, by omega⟩, ?_⟩
      rw [hde, hm12]
      exact toSecs_year_first y

theorem addDays_secs :
    ∀ (n : Nat) (c : Nat × Nat × Nat), dayValid c = true →
      dayValid (addDays n c) = true ∧
        toSecs (addDays n c).1 (addDays n c).2.1 (addDays n c).2.2 0 =
          toSecs c.1 c.2.1 c.2.2 0 + n * 86400
  | 0, c, hv => ⟨hv, by
      show toSecs c.1 c.2.1 c.2.2 0 = toSecs c.1 c.2.1 c.2.2 0 + 0 * 86400
      simp⟩
  | n + 1, c, hv => by
    have h1 := nextDay_secs c hv
    have h2 := addDays_secs n (nextDay c) h1.1
    rw [show addDays (n + 1) c = addDays n (nextDay c) from rfl]
    refine ⟨h2.1, ?_⟩
    rw [h2.2, h1.2]
    ring

theorem weeklyLoop_summary (now : Nat) :
    ∀ (k : Nat) (c : Nat × Nat × Nat), dayValid c = true →
      (weeklyLoop now k c).Chain' (fun w w' => w.2 = w'.1 ∧ w.1 < w'.1) ∧
      (∀ w ∈ weeklyLoop now k c,
        w.1 + 5400 ≤ now ∧ w.1 < w.2 ∧ w.2 ≤ now) ∧
      (∀ w, (weeklyLoop now k c).head? = some w →
        w.1 = toSecs c.1 c.2.1 c.2.2 0)
  | 0, c, _ => by
    refine ⟨List.chain'_nil, ?_, ?_⟩
    · intro w hw
      simp [weeklyLoop] at hw
    · intro w hw
      simp [weeklyLoop] at hw
  | k + 1, c, hv => by
    by_cases hinv : check_invalid_date now c.1 c.2.1 c.2.2 0 = true
    · rw [weeklyLoop, if_pos hinv]
      exact weeklyLoop_summary now k c hv
    · rw [weeklyLoop, if_neg hinv]
      dsimp only
      have hrec : toSecs c.1 c.2.1 c.2.2 0 + 5400 ≤ now := by
        have h2 := hinv
        simp only [Bool.not_eq_true, check_day_eq, hv, Bool.true_and,
          dayRec] at h2
        rw [Bool.not_eq_false', decide_eq_true_eq] at h2
        exact h2
      by_cases hcl : now < toSecs c.1 c.2.1 c.2.2 0 + 7 * 86400
      · rw [if_pos hcl]
        refine ⟨by simp, ?_, ?_⟩
        · intro w hw
          rw [List.mem_singleton] at hw
          subst hw
          exact ⟨hrec, by omega, Nat.le_refl now⟩
        · intro w hw
          rw [List.head?_cons, Option.some.injEq] at hw
          rw [← hw]
      · rw [if_neg hcl]
        have hnv := addDays_secs 7 c hv
        obtain ⟨ihc, ihb, ihh⟩ := weeklyLoop_summary now k (addDays 7 c) hnv.1
        refine ⟨?_, ?_, ?_⟩
        · refine List.chain'_cons'.mpr ⟨?_, ihc⟩
          intro w hw
          rw [Option.mem_def] at hw
          have hw1 := ihh w hw
          rw [hnv.2] at hw1
          exact ⟨by dsimp only; omega, by dsimp only; omega⟩
        · intro w hw
          rw [List.mem_cons] at hw
          rcases hw with rfl | hw
          · exact ⟨hrec, by omega, by omega⟩
          · exact ihb w hw
        · intro w hw
          rw [List.head?_cons, Option.some.injEq] at hw
          rw [← hw]

theorem weekly_summary (now sy ey : Nat) (hsy : 1 ≤ sy) :
    (getPeriodsWeekly now sy ey).Chain'
      (fun w w' => w.2 = w'.1 ∧ w.1 < w'.1) ∧
    ∀ w ∈ getPeriodsWeekly now sy ey,
      w.1 + 5400 ≤ now ∧ w.1 < w.2 ∧ w.2 ≤ now := by
  have hv : dayValid (sy, 1, 1) = true := by
    simp only [dayValid, decide_eq_true_eq, isValidDateHour]
    have := daysInMonth_pos sy 1
    omega
  obtain ⟨h1, h2, _⟩ :=
    weeklyLoop_summary now (weeklyIterCount sy ey) (sy, 1, 1) hv
  exact ⟨h1, h2⟩

theorem flatten_wrap (l : List (Nat × Nat)) :
    (if l.length > 0 then [l] else []).flatten = l := by
  by_cases h : l.length > 0
  · rw [if_pos h]
    simp
  · rw [if_neg h]
    rw [Nat.not_lt, Nat.le_zero, List.length_eq_zero] at h
    rw [h]
    rfl

theorem get_periods_flatten_eq (tr : String) (now sy ey : Nat) :
    (get_periods tr now sy ey).flatten =
      (if tr = "hourly" then getPeriodsHourly now sy ey
       else if tr = "daily" then getPeriodsDaily now sy ey
       else if tr = "weekly" then getPeriodsWeekly now sy ey
       else if tr = "monthly" then getPeriodsMonthly now sy ey
       else if tr = "yearly" then getPeriodsYearly now sy ey
       else []) := by
  unfold get_periods
  dsimp only
  exact flatten_wrap _

theorem strong_to_invariants (l : List (Nat × Nat))
    (hc : l.Chain' (fun w w' => (w.2 = w'.1 ∨ w.2 + 1 = w'.1) ∧ w.1 < w'.1))
    (hb : ∀ w ∈ l, w.1 < w.2) :
    l.Pairwise (fun w w' => w.1 < w'.1 ∧ w.2 ≤ w'.1) := by
  apply windows_pairwise l ?_ hb
  exact hc.imp (fun a b h => ⟨h.2, by rcases h.1 with h1 | h1 <;> omega⟩)

/-- C3: for every granularity string and every valid input
(`start_year ≥ 2006`, `stop_year ≥ start_year`) and fixed `now`, the
flattened window sequence of `get_periods` is strictly increasing and
non-overlapping (pairwise `w.start < w'.start` and `w.end ≤ w'.start`),
and every emitted window satisfies `start < end`. -/
theorem get_periods_invariants (tr : String) (now sy ey : Nat)
    (h1 : 2006 ≤ sy) (_h2 : sy ≤ ey) :
    ((get_periods tr now sy ey).flatten).Pairwise
      (fun w w' => w.1 < w'.1 ∧ w.2 ≤ w'.1) ∧
    ∀ w ∈ (get_periods tr now sy ey).flatten, w.1 < w.2 := by
  have hsy : 1 ≤ sy := by omega
  rw [get_periods_flatten_eq]
  split_ifs
  · obtain ⟨hch, hmem⟩ := hourly_summary now sy ey hsy
    have hb : ∀ w ∈ getPeriodsHourly now sy ey, w.1 < w.2 :=
      fun w hw => (hmem w hw).2.1
    exact ⟨strong_to_invariants _
      (hch.imp fun a b h => ⟨Or.inl h.1, h.2⟩) hb, hb⟩
  · obtain ⟨hch, hmem⟩ := daily_summary now sy ey hsy
    have hb : ∀ w ∈ getPeriodsDaily now sy ey, w.1 < w.2 :=
      fun w hw => (hmem w hw).2.1
    exact ⟨strong_to_invariants _
      (hch.imp fun a b h => ⟨Or.inl h.1, h.2⟩) hb, hb⟩
  · obtain ⟨hch, hmem⟩ := weekly_summary now sy ey hsy
    have hb : ∀ w ∈ getPeriodsWeekly now sy ey, w.1 < w.2 :=
      fun w hw => (hmem w hw).2.1
    exact ⟨strong_to_invariants _
      (hch.imp fun a b h => ⟨Or.inl h.1, h.2⟩) hb, hb⟩
  · obtain ⟨hch, hmem⟩ := monthly_summary now sy ey hsy
    have hb : ∀ w ∈ getPeriodsMonthly now sy ey, w.1 < w.2 :=
      fun w hw => (hmem w hw).2.1
    exact ⟨strong_to_invariants _
      (hch.imp fun a b h => ⟨Or.inr h.1, h.2⟩) hb, hb⟩
  · obtain ⟨hch, hmem⟩ := yearly_summary now sy ey hsy
    have hb : ∀ w ∈ getPeriodsYearly now sy ey, w.1 < w.2 :=
      fun w hw => (hmem w hw).2.1
    exact ⟨strong_to_invariants _
      (hch.imp fun a b h => ⟨Or.inr h.1, h.2⟩) hb, hb⟩
  · exact ⟨List.Pairwise.nil, by simp⟩

theorem get_periods_invariants_witness :
    2006 ≤ 2006 ∧ 2006 ≤ 2006 ∧
      (((get_periods "daily" 0 2006 2006).flatten).Pairwise
        (fun w w' => w.1 < w'.1 ∧ w.2 ≤ w'.1) ∧
      ∀ w ∈ (get_periods "daily" 0 2006 2006).flatten, w.1 < w.2) :=
  ⟨by decide, by decide,
    get_periods_invariants "daily" 0 2006 2006 (by decide) (by decide)⟩

/-- C4: for every granularity and fixed `now`, no emitted window ends
after `now`, and no emitted window starts within 90 minutes of `now`
(its start satisfies `start + 5400 ≤ now`). -/
theorem get_periods_now_bounds (tr : String) (now sy ey : Nat)
    (hsy : 1 ≤ sy) :
    ∀ w ∈ (get_periods tr now sy ey).flatten,
      w.2 ≤ now ∧ w.1 + 5400 ≤ now := by
  rw [get_periods_flatten_eq]
  split_ifs
  · intro w hw
    have h := (hourly_summary now sy ey hsy).2 w hw
    exact ⟨h.2.2.1, h.1⟩
  · intro w hw
    have h := (daily_summary now sy ey hsy).2 w hw
    exact ⟨h.2.2.1, h.1⟩
  · intro w hw
    have h := (weekly_summary now sy ey hsy).2 w hw
    exact ⟨h.2.2, h.1⟩
  · intro w hw
    have h := (monthly_summary now sy ey hsy).2 w hw
    exact ⟨h.2.2.1, h.1⟩
  · intro w hw
    have h := (yearly_summary now sy ey hsy).2 w hw
    exact ⟨h.2.2.1, h.1⟩
  · intro w hw
    simp at hw

theorem get_periods_now_bounds_witness :
    1 ≤ 1 ∧ ∀ w ∈ (get_periods "weekly" 0 1 1).flatten,
      w.2 ≤ 0 ∧ w.1 + 5400 ≤ 0 :=
  ⟨by decide, get_periods_now_bounds "weekly" 0 1 1 (by decide)⟩

/-- C9: every window emitted by the hourly and daily granularities
corresponds to a valid calendar date-hour: its start is the timestamp of
a `(year, month, day, hour)` combination that exists on the calendar
(invalid combinations are skipped, never emitted). -/
theorem hourly_daily_calendar_valid (now sy ey : Nat) (hsy : 1 ≤ sy) :
    (∀ w ∈ (get_periods "hourly" now sy ey).flatten,
      ∃ y m d h, isValidDateHour y m d h ∧ w.1 = toSecs y m d h ∧
        w.2 = toSecs y m d h + 3600) ∧
    (∀ w ∈ (get_periods "daily" now sy ey).flatten,
      ∃ y m d, isValidDateHour y m d 0 ∧ w.1 = toSecs y m d 0 ∧
        (w.2 = toSecs y m d 0 + 86400 ∨ w.2 = now - 3600)) := by
  constructor
  · rw [get_periods_flatten_eq, if_pos rfl]
    exact fun w hw => ((hourly_summary now sy ey hsy).2 w hw).2.2.2
  · rw [get_periods_flatten_eq, if_neg (by decide), if_pos rfl]
    exact fun w hw => ((daily_summary now sy ey hsy).2 w hw).2.2.2

theorem hourly_daily_calendar_valid_witness :
    1 ≤ 1 ∧
      ((∀ w ∈ (get_periods "hourly" 0 1 1).flatten,
        ∃ y m d h, isValidDateHour y m d h ∧ w.1 = toSecs y m d h ∧
          w.2 = toSecs y m d h + 3600) ∧
      (∀ w ∈ (get_periods "daily" 0 1 1).flatten,
        ∃ y m d, isValidDateHour y m d 0 ∧ w.1 = toSecs y m d 0 ∧
          (w.2 = toSecs y m d 0 + 86400 ∨ w.2 = 0 - 3600))) :=
  ⟨by decide, hourly_daily_calendar_valid 0 1 1 (by decide)⟩

/-- C10: every unclipped monthly/yearly window ends exactly one second
before the first instant of the next period, so consecutive
monthly/yearly windows satisfy `w.end + 1 = w'.start` (the final second
of each month/year is covered by no window), while consecutive hourly,
daily and weekly windows are contiguous: `w.end = w'.start`. -/
theorem monthly_yearly_end_gap (now sy ey : Nat) (hsy : 1 ≤ sy) :
    ((getPeriodsMonthly now sy ey).Chain'
        (fun w w' => w.2 + 1 = w'.1 ∧ w.1 < w'.1) ∧
      ∀ w ∈ getPeriodsMonthly now sy ey, ∃ y m, w.1 = toSecs y m 1 0 ∧
        (w.2 + 1 = toSecs (nextMonth y m).1 (nextMonth y m).2 1 0 ∨
          w.2 = now)) ∧
    ((getPeriodsYearly now sy ey).Chain'
        (fun w w' => w.2 + 1 = w'.1 ∧ w.1 < w'.1) ∧
      ∀ w ∈ getPeriodsYearly now sy ey, ∃ y, w.1 = toSecs y 1 1 0 ∧
        (w.2 + 1 = toSecs (y + 1) 1 1 0 ∨ w.2 = now)) ∧
    (getPeriodsHourly now sy ey).Chain' (fun w w' => w.2 = w'.1) ∧
    (getPeriodsDaily now sy ey).Chain' (fun w w' => w.2 = w'.1) ∧
    (getPeriodsWeekly now sy ey).Chain' (fun w w' => w.2 = w'.1) := by
  obtain ⟨hmc, hmm⟩ := monthly_summary now sy ey hsy
  obtain ⟨hyc, hym⟩ := yearly_summary now sy ey hsy
  refine ⟨⟨hmc, ?_⟩, ⟨hyc, ?_⟩, ?_, ?_, ?_⟩
  · intro w hw
    obtain ⟨y, m, _, he1, he2⟩ := (hmm w hw).2.2.2
    exact ⟨y, m, he1, he2⟩
  · intro w hw
    obtain ⟨y, _, he1, he2⟩ := (hym w hw).2.2.2
    exact ⟨y, he1, he2⟩
  · exact ((hourly_summary now sy ey hsy).1).imp fun a b h => h.1
  · exact ((daily_summary now sy ey hsy).1).imp fun a b h => h.1
  · exact ((weekly_summary now sy ey hsy).1).imp fun a b h => h.1

theorem monthly_yearly_end_gap_witness :
    1 ≤ 1 ∧
      (((getPeriodsMonthly 0 1 1).Chain'
          (fun w w' => w.2 + 1 = w'.1 ∧ w.1 < w'.1) ∧
        ∀ w ∈ getPeriodsMonthly 0 1 1, ∃ y m, w.1 = toSecs y m 1 0 ∧
          (w.2 + 1 = toSecs (nextMonth y m).1 (nextMonth y m).2 1 0 ∨
            w.2 = 0)) ∧
      ((getPeriodsYearly 0 1 1).Chain'
          (fun w w' => w.2 + 1 = w'.1 ∧ w.1 < w'.1) ∧
        ∀ w ∈ getPeriodsYearly 0 1 1, ∃ y, w.1 = toSecs y 1 1 0 ∧
          (w.2 + 1 = toSecs (y + 1) 1 1 0 ∨ w.2 = 0)) ∧
      (getPeriodsHourly 0 1 1).Chain' (fun w w' => w.2 = w'.1) ∧
      (getPeriodsDaily 0 1 1).Chain' (fun w w' => w.2 = w'.1) ∧
      (getPeriodsWeekly 0 1 1).Chain' (fun w w' => w.2 = w'.1)) :=
  ⟨by decide, monthly_yearly_end_gap 0 1 1 (by decide)⟩

end Timelms
